import Mathlib

/-!
Shallow embedding of the MAXRECTS rectangle packer from src/src/lib.rs
(crate maxrects), specialised to the scalar type Int.  The Rust code is
generic over an ordered, subtractable scalar S; integers satisfy every
bound the code requires, and the comparator a.partial_cmp(b).unwrap_or(Equal)
coincides with the total-order comparison on Int.

Rust tuples (S,S) become Int × Int (component .0 becomes .1, .1 becomes .2).
Vec<Rectangle<S>> becomes List Rectangle, with Vec::push as append at the
end and Vec::swap_remove modelled by swap_remove below.  A Rust panic is
modelled as Option.none of the whole operation (the panic happens before any
mutation, so no intermediate state needs to be represented).
-/

/-- Rectangle struct from the source: a min corner and a max corner, half-open. -/
structure Rectangle where
  min : Int × Int
  max : Int × Int
deriving DecidableEq

/-- Rectangle::intersects: strict inequalities on all four sides (half-open semantics). -/
def Rectangle.intersects (a other : Rectangle) : Prop :=
  a.min.1 < other.max.1 ∧
  a.min.2 < other.max.2 ∧
  a.max.1 > other.min.1 ∧
  a.max.2 > other.min.2

instance (a other : Rectangle) : Decidable (a.intersects other) := by
  unfold Rectangle.intersects; exact inferInstance

/-- Rectangle::supersets: a contains all of other (non-strict on all four sides). -/
def Rectangle.supersets (a other : Rectangle) : Prop :=
  a.min.1 ≤ other.min.1 ∧
  a.min.2 ≤ other.min.2 ∧
  a.max.1 ≥ other.max.1 ∧
  a.max.2 ≥ other.max.2

instance (a other : Rectangle) : Decidable (a.supersets other) := by
  unfold Rectangle.supersets; exact inferInstance

/-- Rectangle::dimensions: (width, height) = max - min componentwise. -/
def Rectangle.dimensions (r : Rectangle) : Int × Int :=
  (r.max.1 - r.min.1, r.max.2 - r.min.2)

/-- Best-short-side heuristic bssf from the source; None when sup cannot contain sub.
On a totally ordered scalar partial_min always returns Some of the minimum. -/
def bssf (sup sub : Int × Int) : Option Int :=
  if sup.1 ≥ sub.1 ∧ sup.2 ≥ sub.2 then
    some (min (sup.1 - sub.1) (sup.2 - sub.2))
  else
    none

/-- MinMaxIteratorExt::min_cmp from the source: a left fold that keeps the current
minimum and replaces it only when the comparison returns Greater, so the first
element attaining the minimum wins ties. -/
def min_cmp {α : Type} (l : List α) (cmp : α → α → Ordering) : Option α :=
  l.foldl
    (fun mv x =>
      match mv with
      | some m =>
        match cmp m x with
        | Ordering.gt => some x
        | _ => some m
      | none => some x)
    none

/-- Vec::swap_remove(i): overwrite position i with the last element and pop the last
element.  Rust panics when i is out of bounds; every call site below is in bounds. -/
def swap_remove {α : Type} (l : List α) (i : Nat) : List α :=
  match l.getLast? with
  | none => []
  | some x => (l.set i x).dropLast

/-- FailedPacking struct from the source.  The field holding already packed items is
named partial_packed in the source. -/
structure FailedPacking (T : Type) where
  placed : List (T × (Int × Int))
  original : List T

/-- FailedPacking::restore: pushes the item of every packed pair onto original and
returns it, i.e. original followed by the items of the placed pairs. -/
def FailedPacking.restore {T : Type} (f : FailedPacking T) : List T :=
  f.original ++ f.placed.map Prod.fst

/-- RectPacker::add_free.  The source panics (before any mutation) when a component
of min exceeds the corresponding component of max; we model the panic as none.
On success the rectangle is pushed onto the free list. -/
def add_free (empty : List Rectangle) (mn mx : Int × Int) : Option (List Rectangle) :=
  if mn.1 > mx.1 then
    none
  else if mn.2 > mx.2 then
    none
  else
    some (empty ++ [Rectangle.mk mn mx])

/-- RectPacker::optimal: filter the free list down to candidates (rectangle paired
with its bssf score), take the minimum by score with min_cmp, and return the min
corner of the winner together with its score. -/
def optimal (empty : List Rectangle) (size : Int × Int) : Option ((Int × Int) × Int) :=
  (min_cmp
      (empty.filterMap fun x => (bssf x.dimensions size).map fun h => (x, h))
      (fun a b => compare a.2 b.2)).map
    fun p => (p.1.min, p.2)

/-- The four residual rectangles pushed by subtract_rect for one intersecting free
rectangle, in source push order: left, bottom, right, top. -/
def residuals (sub free : Rectangle) : List Rectangle :=
  (if sub.min.1 > free.min.1 then
    [Rectangle.mk free.min (sub.min.1, free.max.2)] else []) ++
  (if sub.min.2 > free.min.2 then
    [Rectangle.mk free.min (free.max.1, sub.min.2)] else []) ++
  (if sub.max.1 < free.max.1 then
    [Rectangle.mk (sub.max.1, free.min.2) free.max] else []) ++
  (if sub.max.2 < free.max.2 then
    [Rectangle.mk (free.min.1, sub.max.2) free.max] else [])

/-- swap_remove shortens a list by one. -/
theorem swap_remove_length {α : Type} (l : List α) (i : Nat) :
    (swap_remove l i).length = l.length - 1 := by
  unfold swap_remove
  cases hlast : l.getLast? with
  | none =>
    rw [List.getLast?_eq_none_iff] at hlast
    simp [hlast]
  | some x =>
    simp [List.length_dropLast, List.length_set]

/-- The first while loop of subtract_rect: scan the free list, replacing every
rectangle that intersects sub by its residuals (pushed at the end), using
swap_remove and the derived counter to skip residuals appended in this pass. -/
def subtract_loop (sub : Rectangle) (l : List Rectangle) (index derived : Nat) :
    List Rectangle :=
  if h : index < l.length - derived then
    if (l.get ⟨index, Nat.lt_of_lt_of_le h (Nat.sub_le l.length derived)⟩).intersects
        sub then
      if derived +
          (residuals sub
            (l.get ⟨index, Nat.lt_of_lt_of_le h (Nat.sub_le l.length derived)⟩)).length
          > 0 then
        subtract_loop sub
          (swap_remove
            (l ++ residuals sub
              (l.get ⟨index, Nat.lt_of_lt_of_le h (Nat.sub_le l.length derived)⟩))
            index)
          (index + 1)
          (derived +
            (residuals sub
              (l.get ⟨index, Nat.lt_of_lt_of_le h (Nat.sub_le l.length derived)⟩)).length
            - 1)
      else
        subtract_loop sub
          (swap_remove
            (l ++ residuals sub
              (l.get ⟨index, Nat.lt_of_lt_of_le h (Nat.sub_le l.length derived)⟩))
            index)
          index 0
    else
      subtract_loop sub l (index + 1) derived
  else
    l
termination_by l.length - derived - index
decreasing_by
  · simp only [swap_remove_length, List.length_append]
    omega
  · simp only [swap_remove_length, List.length_append]
    omega
  · omega

/-- Inner while loop of the pairwise subset-pruning pass at the end of
subtract_rect, for a fixed outer index i.  The proof argument records that i
stays strictly below j, which together with the loop guard keeps both accesses
in bounds (the Rust code would panic otherwise). -/
def prune_inner (l : List Rectangle) (i j : Nat) (hij : i < j) : List Rectangle :=
  if h : j < l.length then
    if (l.get ⟨i, Nat.lt_trans hij h⟩).supersets (l.get ⟨j, h⟩) then
      prune_inner (swap_remove l j) i j hij
    else if (l.get ⟨j, h⟩).supersets (l.get ⟨i, Nat.lt_trans hij h⟩) then
      prune_inner (swap_remove l i) i (i + 1) (Nat.lt_succ_self i)
    else
      prune_inner l i (j + 1) (Nat.lt_succ_of_lt hij)
  else
    l
termination_by (l.length, l.length - j)
decreasing_by
  · apply Prod.Lex.left
    simp only [swap_remove_length]
    omega
  · apply Prod.Lex.left
    simp only [swap_remove_length]
    omega
  · apply Prod.Lex.right
    omega

/-- prune_inner never lengthens the list. -/
theorem prune_inner_length_le (l : List Rectangle) (i j : Nat) (hij : i < j) :
    (prune_inner l i j hij).length ≤ l.length := by
  induction l, i, j, hij using prune_inner.induct with
  | case1 l i j hij h hab ih =>
    rw [prune_inner]
    simp only [dif_pos h, if_pos hab]
    have := swap_remove_length l j
    omega
  | case2 l i j hij h hab hba ih =>
    rw [prune_inner]
    simp only [dif_pos h, if_neg hab, if_pos hba]
    have := swap_remove_length l i
    omega
  | case3 l i j hij h hab hba ih =>
    rw [prune_inner]
    simp only [dif_pos h, if_neg hab, if_neg hba]
    omega
  | case4 l i j hij h =>
    rw [prune_inner, dif_neg h]

/-- Outer while loop of the pairwise subset-pruning pass. -/
def prune_outer (l : List Rectangle) (i : Nat) : List Rectangle :=
  if h : i < l.length then
    prune_outer (prune_inner l i (i + 1) (Nat.lt_succ_self i)) (i + 1)
  else
    l
termination_by l.length - i
decreasing_by
  have := prune_inner_length_le l i (i + 1) (Nat.lt_succ_self i)
  omega

/-- RectPacker::subtract_rect: the splitting loop followed by the pairwise
subset-pruning pass. -/
def subtract_rect (sub : Rectangle) (l : List Rectangle) : List Rectangle :=
  prune_outer (subtract_loop sub l 0 0) 0

/-- RectPacker::pack: look up the optimal free rectangle, subtract the occupied
rectangle [position, position + size) and return the position; on None the free
list is returned untouched. -/
def pack (empty : List Rectangle) (width height : Int) :
    Option (Int × Int) × List Rectangle :=
  match optimal empty (width, height) with
  | some (position, _) =>
    (some position,
      subtract_rect
        (Rectangle.mk position (position.1 + width, position.2 + height)) empty)
  | none => (none, empty)

/-- The selection step inside the pack_global loop: enumerate the remaining
objects, attach each object's optimal placement and score, take the minimum by
score with min_cmp and drop the score. -/
def global_select {T : Type} (mapping : T → Int × Int) (empty : List Rectangle)
    (objects : List T) : Option (Nat × (Int × Int) × (Int × Int)) :=
  (min_cmp
      (objects.enum.filterMap fun p =>
        (optimal empty (mapping p.2)).map fun q => ((p.1, q.1, mapping p.2), q.2))
      (fun a b => compare a.2 b.2)).map
    fun x => x.1

/-- min_cmp of a nonempty list is some. -/
theorem min_cmp_isSome {α : Type} (a : α) (l : List α) (cmp : α → α → Ordering) :
    (min_cmp (a :: l) cmp).isSome := by
  unfold min_cmp
  simp only [List.foldl_cons]
  induction l generalizing a with
  | nil => simp
  | cons b t ih =>
    simp only [List.foldl_cons]
    cases cmp a b <;> simp [ih]

/-- Any value returned by min_cmp is a member of the list. -/
theorem min_cmp_mem {α : Type} {l : List α} {cmp : α → α → Ordering} {x : α}
    (h : min_cmp l cmp = some x) : x ∈ l := by
  unfold min_cmp at h
  suffices H : ∀ (l : List α) (m : α),
      l.foldl
        (fun mv x =>
          match mv with
          | some m =>
            match cmp m x with
            | Ordering.gt => some x
            | _ => some m
          | none => some x)
        (some m) = some x → x = m ∨ x ∈ l by
    cases l with
    | nil => simp at h
    | cons a t =>
      simp only [List.foldl_cons] at h
      rcases H t a h with rfl | hx
      · exact List.mem_cons_self _ _
      · exact List.mem_cons_of_mem _ hx
  intro l
  induction l with
  | nil =>
    intro m hm
    simp at hm
    exact Or.inl hm.symm
  | cons b t ih =>
    intro m hm
    simp only [List.foldl_cons] at hm
    cases hcmp : cmp m b with
    | gt =>
      rw [hcmp] at hm
      rcases ih b hm with rfl | hx
      · exact Or.inr (List.mem_cons_self _ _)
      · exact Or.inr (List.mem_cons_of_mem _ hx)
    | lt =>
      rw [hcmp] at hm
      rcases ih m hm with rfl | hx
      · exact Or.inl rfl
      · exact Or.inr (List.mem_cons_of_mem _ hx)
    | eq =>
      rw [hcmp] at hm
      rcases ih m hm with rfl | hx
      · exact Or.inl rfl
      · exact Or.inr (List.mem_cons_of_mem _ hx)

/-- If global_select returns an index, that index is in bounds. -/
theorem global_select_lt {T : Type} {mapping : T → Int × Int}
    {empty : List Rectangle} {objects : List T} {index : Nat}
    {pos size : Int × Int}
    (h : global_select mapping empty objects = some (index, pos, size)) :
    index < objects.length := by
  unfold global_select at h
  cases hmin : min_cmp
      (objects.enum.filterMap fun p =>
        (optimal empty (mapping p.2)).map fun q => ((p.1, q.1, mapping p.2), q.2))
      (fun a b => compare a.2 b.2) with
  | none => rw [hmin] at h; simp at h
  | some y =>
    rw [hmin] at h
    simp only [Option.map_some', Option.some_inj] at h
    have hy := min_cmp_mem hmin
    rw [List.mem_filterMap] at hy
    obtain ⟨p, hp, hpy⟩ := hy
    cases hopt : optimal empty (mapping p.2) with
    | none => rw [hopt] at hpy; simp at hpy
    | some q =>
      rw [hopt] at hpy
      simp only [Option.map_some', Option.some_inj] at hpy
      have hfst : y.1 = (p.1, q.1, mapping p.2) := by rw [← hpy]
      have hip : index = p.1 := by
        have h2 : (index, pos, size) = (p.1, q.1, mapping p.2) := by rw [← h, hfst]
        simpa using congrArg Prod.fst h2
      subst hip
      rw [List.mem_enum_iff_getElem?] at hp
      exact (List.getElem?_eq_some.mp hp).1

/-- The loop body of pack_global: select the globally best (item, placement) pair,
remove the item with swap_remove, subtract the occupied rectangle and record the
position; when no remaining item fits, succeed when no item remains and fail
otherwise. -/
def pack_global_go {T : Type} (mapping : T → Int × Int) (empty : List Rectangle)
    (objects : List T) (packed : List (T × (Int × Int))) :
    List Rectangle × (List (T × (Int × Int)) ⊕ FailedPacking T) :=
  match h : global_select mapping empty objects with
  | some (index, pos, size) =>
    pack_global_go mapping
      (subtract_rect (Rectangle.mk pos (pos.1 + size.1, pos.2 + size.2)) empty)
      (swap_remove objects index)
      (packed ++ [(objects.get ⟨index, global_select_lt h⟩, pos)])
  | none =>
    if objects.isEmpty then
      (empty, Sum.inl packed)
    else
      (empty, Sum.inr (FailedPacking.mk packed objects))
termination_by objects.length
decreasing_by
  have h2 := global_select_lt h
  have h3 := swap_remove_length objects index
  omega

/-- RectPacker::pack_global: run the greedy loop starting from an empty packed
accumulator.  Ok is modelled as Sum.inl, Err as Sum.inr; the final free list is
returned alongside because the Rust method mutates it in place. -/
def pack_global {T : Type} (mapping : T → Int × Int) (empty : List Rectangle)
    (objects : List T) :
    List Rectangle × (List (T × (Int × Int)) ⊕ FailedPacking T) :=
  pack_global_go mapping empty objects []

/-- The packed pairs carried by a pack_global outcome: the full result on success,
the partially packed pairs on failure. -/
def packedPart {T : Type} :
    (List (T × (Int × Int)) ⊕ FailedPacking T) → List (T × (Int × Int))
  | Sum.inl v => v
  | Sum.inr f => f.placed

/-- The occupied rectangle of a packed (item, position) pair under a size mapping. -/
def occupiedOf {T : Type} (mapping : T → Int × Int) (q : T × (Int × Int)) : Rectangle :=
  Rectangle.mk q.2 (q.2.1 + (mapping q.1).1, q.2.2 + (mapping q.1).2)

/-- Spec-side predicate: the free rectangle can contain the requested size, i.e.
its extent dominates the size in both axes. -/
def canContain (r : Rectangle) (size : Int × Int) : Prop :=
  r.dimensions.1 ≥ size.1 ∧ r.dimensions.2 ≥ size.2

instance (r : Rectangle) (size : Int × Int) : Decidable (canContain r size) := by
  unfold canContain; exact inferInstance

/-- Spec-side heuristic score: min of the two leftover dimensions. -/
def score (r : Rectangle) (size : Int × Int) : Int :=
  min (r.dimensions.1 - size.1) (r.dimensions.2 - size.2)

/-- Spec-side residual list, written from the four bullets of the specification
(left, bottom, right, top residuals with their emission guards). -/
def specResiduals (occupied free : Rectangle) : List Rectangle :=
  (if occupied.min.1 > free.min.1 then
    [Rectangle.mk free.min (occupied.min.1, free.max.2)] else []) ++
  (if occupied.min.2 > free.min.2 then
    [Rectangle.mk free.min (free.max.1, occupied.min.2)] else []) ++
  (if occupied.max.1 < free.max.1 then
    [Rectangle.mk (occupied.max.1, free.min.2) free.max] else []) ++
  (if occupied.max.2 < free.max.2 then
    [Rectangle.mk (free.min.1, occupied.max.2) free.max] else [])

/-- Well-formedness of a rectangle: min is componentwise at most max. -/
def WellFormed (r : Rectangle) : Prop :=
  r.min.1 ≤ r.max.1 ∧ r.min.2 ≤ r.max.2

instance (r : Rectangle) : Decidable (WellFormed r) := by
  unfold WellFormed; exact inferInstance

/-- The set of integer points covered by a rectangle (half-open on both axes). -/
def rectSet (r : Rectangle) : Set (Int × Int) :=
  {p : Int × Int | r.min.1 ≤ p.1 ∧ p.1 < r.max.1 ∧ r.min.2 ≤ p.2 ∧ p.2 < r.max.2}

/-- The set of integer points covered by a list of rectangles. -/
def coveredBy (regs : List Rectangle) : Set (Int × Int) :=
  {p : Int × Int | ∃ r ∈ regs, p ∈ rectSet r}

/-- States reachable within one RectPacker lifetime: regs records every rectangle
ever registered with add_free, st is the current free list, placed records the
occupied rectangle of every successful placement (by pack or pack_global, in
order). -/
inductive Reached : List Rectangle → List Rectangle → List Rectangle → Prop where
  | init : Reached [] [] []
  | add {regs st placed st2 : _} {mn mx : Int × Int} :
      Reached regs st placed → add_free st mn mx = some st2 →
      Reached (regs ++ [Rectangle.mk mn mx]) st2 placed
  | packStep {regs st placed : _} {w h : Int} {pos : Int × Int} {st2 : _} :
      Reached regs st placed → pack st w h = (some pos, st2) →
      Reached regs st2 (placed ++ [Rectangle.mk pos (pos.1 + w, pos.2 + h)])
  | globalStep {regs st placed st2 : _} {T : Type} {mapping : T → Int × Int}
      {objects : List T} {res : _} :
      Reached regs st placed → pack_global mapping st objects = (st2, res) →
      Reached regs st2 (placed ++ (packedPart res).map (occupiedOf mapping))

/-- Like Reached, but registration is restricted: a rectangle may only be added
to the free list when it does not intersect any occupied rectangle already
placed.  (The source documentation allows re-registering packed area but then
revokes the packing guarantees, so the no-overlap claim needs this restriction.) -/
inductive ReachedDisj : List Rectangle → List Rectangle → List Rectangle → Prop where
  | init : ReachedDisj [] [] []
  | add {regs st placed st2 : _} {mn mx : Int × Int} :
      ReachedDisj regs st placed → add_free st mn mx = some st2 →
      (∀ p ∈ placed, ¬ (Rectangle.mk mn mx).intersects p) →
      ReachedDisj (regs ++ [Rectangle.mk mn mx]) st2 placed
  | packStep {regs st placed : _} {w h : Int} {pos : Int × Int} {st2 : _} :
      ReachedDisj regs st placed → pack st w h = (some pos, st2) →
      ReachedDisj regs st2 (placed ++ [Rectangle.mk pos (pos.1 + w, pos.2 + h)])
  | globalStep {regs st placed st2 : _} {T : Type} {mapping : T → Int × Int}
      {objects : List T} {res : _} :
      ReachedDisj regs st placed → pack_global mapping st objects = (st2, res) →
      ReachedDisj regs st2 (placed ++ (packedPart res).map (occupiedOf mapping))

/-- Rectangle intersection is symmetric. -/
theorem Rectangle.intersects_symm {a b : Rectangle} (h : a.intersects b) :
    b.intersects a := by
  obtain ⟨h1, h2, h3, h4⟩ := h
  exact ⟨h3, h4, h1, h2⟩

/-- supersets is reflexive. -/
theorem Rectangle.supersets_refl (r : Rectangle) : r.supersets r :=
  ⟨le_refl _, le_refl _, le_refl _, le_refl _⟩

/-- supersets is transitive. -/
theorem Rectangle.supersets_trans {a b c : Rectangle}
    (hab : a.supersets b) (hbc : b.supersets c) : a.supersets c := by
  obtain ⟨a1, a2, a3, a4⟩ := hab
  obtain ⟨b1, b2, b3, b4⟩ := hbc
  exact ⟨le_trans a1 b1, le_trans a2 b2, le_trans b3 a3, le_trans b4 a4⟩

/-- Anything intersecting a sub-rectangle intersects the enclosing rectangle. -/
theorem Rectangle.intersects_of_supersets {f x p : Rectangle}
    (hs : f.supersets x) (hx : x.intersects p) : f.intersects p := by
  obtain ⟨s1, s2, s3, s4⟩ := hs
  obtain ⟨i1, i2, i3, i4⟩ := hx
  exact ⟨lt_of_le_of_lt s1 i1, lt_of_le_of_lt s2 i2,
    lt_of_lt_of_le i3 s3, lt_of_lt_of_le i4 s4⟩

/-- A sub-rectangle of a rectangle keeps every point of the sub-rectangle. -/
theorem rectSet_mono {f x : Rectangle} (hs : f.supersets x) :
    rectSet x ⊆ rectSet f := by
  obtain ⟨s1, s2, s3, s4⟩ := hs
  intro p hp
  obtain ⟨p1, p2, p3, p4⟩ := hp
  exact ⟨le_trans s1 p1, lt_of_lt_of_le p2 s3, le_trans s2 p3, lt_of_lt_of_le p4 s4⟩

/-- The source residual list and the spec residual list coincide. -/
theorem residuals_eq_specResiduals (sub free : Rectangle) :
    residuals sub free = specResiduals sub free := rfl

/-- No residual of a subtraction intersects the subtracted rectangle. -/
theorem residuals_not_intersects {sub free r : Rectangle}
    (hr : r ∈ residuals sub free) : ¬ r.intersects sub := by
  unfold residuals at hr
  simp only [List.mem_append, List.mem_ite_nil_right, List.mem_singleton] at hr
  rcases hr with ((⟨hg, rfl⟩ | ⟨hg, rfl⟩) | ⟨hg, rfl⟩) | ⟨hg, rfl⟩
  · rintro ⟨-, -, h3, -⟩
    exact absurd h3 (lt_irrefl _)
  · rintro ⟨-, -, -, h4⟩
    exact absurd h4 (lt_irrefl _)
  · rintro ⟨h1, -, -, -⟩
    exact absurd h1 (lt_irrefl _)
  · rintro ⟨-, h2, -, -⟩
    exact absurd h2 (lt_irrefl _)

/-- Each residual of an intersecting free rectangle is contained in it. -/
theorem residuals_supersets {sub free r : Rectangle}
    (hint : free.intersects sub) (hr : r ∈ residuals sub free) :
    free.supersets r := by
  obtain ⟨i1, i2, i3, i4⟩ := hint
  unfold residuals at hr
  simp only [List.mem_append, List.mem_ite_nil_right, List.mem_singleton] at hr
  rcases hr with ((⟨hg, rfl⟩ | ⟨hg, rfl⟩) | ⟨hg, rfl⟩) | ⟨hg, rfl⟩
  · exact ⟨le_refl _, le_refl _, le_of_lt i3, le_refl _⟩
  · exact ⟨le_refl _, le_refl _, le_refl _, le_of_lt i4⟩
  · exact ⟨le_of_lt i1, le_refl _, le_refl _, le_refl _⟩
  · exact ⟨le_refl _, le_of_lt i2, le_refl _, le_refl _⟩

/-- Each residual of a well-formed intersecting free rectangle is well-formed. -/
theorem residuals_wf {sub free r : Rectangle} (hwf : WellFormed free)
    (hr : r ∈ residuals sub free) : WellFormed r := by
  obtain ⟨w1, w2⟩ := hwf
  unfold residuals at hr
  simp only [List.mem_append, List.mem_ite_nil_right, List.mem_singleton] at hr
  rcases hr with ((⟨hg, rfl⟩ | ⟨hg, rfl⟩) | ⟨hg, rfl⟩) | ⟨hg, rfl⟩
  · exact ⟨le_of_lt hg, w2⟩
  · exact ⟨w1, le_of_lt hg⟩
  · exact ⟨le_of_lt hg, w2⟩
  · exact ⟨w1, le_of_lt hg⟩

/-- swap_remove at the position of the last element just drops it. -/
theorem swap_remove_concat_self {α : Type} (P : List α) (m : α) :
    swap_remove (P ++ [m]) P.length = P := by
  unfold swap_remove
  rw [List.getLast?_concat]
  show ((P ++ [m]).set P.length m).dropLast = P
  rw [List.set_append]
  simp only [lt_irrefl, if_false, Nat.sub_self, List.set_cons_zero]
  exact List.dropLast_concat

/-- swap_remove in the middle of a list moves the last element into the hole. -/
theorem swap_remove_append_concat {α : Type} (P : List α) (m : α) (R : List α)
    (x : α) : swap_remove (P ++ m :: (R ++ [x])) P.length = P ++ x :: R := by
  unfold swap_remove
  have h1 : P ++ m :: (R ++ [x]) = (P ++ m :: R) ++ [x] := by simp
  rw [h1, List.getLast?_concat]
  show (((P ++ m :: R) ++ [x]).set P.length x).dropLast = P ++ x :: R
  rw [List.set_append]
  have h2 : P.length < (P ++ m :: R).length := by simp
  simp only [h2, if_true]
  rw [List.set_append]
  simp only [lt_irrefl, if_false, Nat.sub_self, List.set_cons_zero]
  exact List.dropLast_concat

/-- Membership is preserved backwards through swap_remove. -/
theorem mem_swap_remove {α : Type} {l : List α} {i : Nat} {x : α}
    (hx : x ∈ swap_remove l i) : x ∈ l := by
  unfold swap_remove at hx
  cases hlast : l.getLast? with
  | none => rw [hlast] at hx; simp at hx
  | some y =>
    rw [hlast] at hx
    have h1 : x ∈ l.set i y := (List.dropLast_sublist (l.set i y)).subset hx
    rcases List.mem_or_eq_of_mem_set h1 with h | rfl
    · exact h
    · obtain ⟨hne, heq⟩ := List.mem_getLast?_eq_getLast (Option.mem_def.mpr hlast)
      rw [heq]
      exact List.getLast_mem hne

/-- Reading the element just after a prefix. -/
theorem getElem_append_cons {α : Type} (P : List α) (m : α) (R : List α)
    (h : P.length < (P ++ m :: R).length) : (P ++ m :: R)[P.length] = m := by
  rw [List.getElem_append_right (le_refl P.length)]
  simp

/-- Helper: a cons list as a multiset. -/
theorem coe_cons_eq {α : Type} (a : α) (l : List α) :
    (↑(a :: l) : Multiset α) = {a} + ↑l := by
  rw [← Multiset.cons_coe, Multiset.singleton_add]

theorem subtract_loop_multiset (sub : Rectangle) (M P T : List Rectangle) :
    (↑(subtract_loop sub (P ++ M ++ T) P.length T.length) : Multiset Rectangle) =
      ↑P + ↑T + ↑(M.filter fun f => !decide (f.intersects sub)) +
      ↑((M.filter fun f => decide (f.intersects sub)).flatMap (residuals sub)) := by
  cases M with
  | nil =>
    have hc : ¬ (P.length < (P ++ [] ++ T).length - T.length) := by
      simp
    rw [subtract_loop, dif_neg hc]
    simp [← Multiset.coe_add]
  | cons m M2 =>
    have hsplit : P ++ (m :: M2) ++ T = P ++ m :: (M2 ++ T) := by simp
    rw [hsplit]
    have hc : P.length < (P ++ m :: (M2 ++ T)).length - T.length := by
      simp
      omega
    rw [subtract_loop, dif_pos hc]
    have hget : ∀ hh : P.length < (P ++ m :: (M2 ++ T)).length,
        (P ++ m :: (M2 ++ T)).get ⟨P.length, hh⟩ = m := by
      intro hh
      rw [List.get_eq_getElem]
      exact getElem_append_cons P m (M2 ++ T) hh
    rw [hget]
    by_cases hm : m.intersects sub
    · rw [if_pos hm]
      by_cases hk : T.length + (residuals sub m).length > 0
      · rw [if_pos hk]
        rcases List.eq_nil_or_concat (residuals sub m) with hres | ⟨res2, x, hres⟩
        · rcases List.eq_nil_or_concat T with hT | ⟨T2, x, hT⟩
          · exfalso
            rw [hres, hT] at hk
            simp at hk
          · rw [List.concat_eq_append] at hT
            have happ : (P ++ m :: (M2 ++ T)) ++ residuals sub m
                = P ++ m :: ((M2 ++ T2) ++ [x]) := by
              rw [hres, hT]
              simp
            rw [happ, swap_remove_append_concat]
            have hlen : T.length + (residuals sub m).length - 1 = T2.length := by
              rw [hres, hT]
              simp
            rw [hlen]
            have IH2 := subtract_loop_multiset sub M2 (P ++ [x]) T2
            simp only [List.append_assoc, List.singleton_append, List.cons_append,
              List.nil_append, List.length_append, List.length_singleton] at IH2
            rw [IH2]
            rw [List.filter_cons, List.filter_cons]
            simp only [hm, decide_True, Bool.not_true, if_false, if_true,
              List.flatMap_cons, hres, List.nil_append]
            rw [hT]
            simp only [coe_cons_eq, ← Multiset.coe_add]
            abel
        · rw [List.concat_eq_append] at hres
          have happ : (P ++ m :: (M2 ++ T)) ++ residuals sub m
              = P ++ m :: ((M2 ++ (T ++ res2)) ++ [x]) := by
            rw [hres]
            simp
          rw [happ, swap_remove_append_concat]
          have hlen : T.length + (residuals sub m).length - 1
              = T.length + res2.length := by
            rw [hres]
            simp
          rw [hlen]
          have IH3 := subtract_loop_multiset sub M2 (P ++ [x]) (T ++ res2)
          simp only [List.append_assoc, List.singleton_append, List.cons_append,
            List.nil_append, List.length_append, List.length_singleton] at IH3
          rw [IH3]
          rw [List.filter_cons, List.filter_cons]
          simp only [hm, decide_True, Bool.not_true, if_false, if_true,
            List.flatMap_cons, hres]
          simp only [coe_cons_eq, ← Multiset.coe_add]
          abel
      · rw [if_neg hk]
        have hT : T = [] := List.length_eq_zero.mp (by omega)
        have hres : residuals sub m = [] := List.length_eq_zero.mp (by omega)
        subst hT
        rw [hres]
        simp only [List.append_nil]
        rcases List.eq_nil_or_concat M2 with hM2 | ⟨L, x, hM2⟩
        · subst hM2
          rw [swap_remove_concat_self]
          have IH0 := subtract_loop_multiset sub [] P []
          simp only [List.append_nil, List.length_nil] at IH0
          rw [IH0]
          rw [List.filter_cons, List.filter_cons]
          simp only [hm, decide_True, Bool.not_true, if_false, if_true,
            List.flatMap_cons, hres, List.nil_append]
          simp [← Multiset.coe_add]
        · rw [List.concat_eq_append] at hM2
          subst hM2
          rw [swap_remove_append_concat]
          have IH4 := subtract_loop_multiset sub (x :: L) P []
          simp only [List.append_nil, List.length_nil, List.cons_append,
            List.singleton_append, List.append_assoc, List.nil_append] at IH4
          rw [IH4]
          have hperm : (x :: L).Perm (L ++ [x]) := (List.perm_append_singleton x L).symm
          have e1 : (↑(List.filter (fun f => !decide (f.intersects sub)) (x :: L)) :
                Multiset Rectangle)
              = ↑(List.filter (fun f => !decide (f.intersects sub)) (L ++ [x])) :=
            Multiset.coe_eq_coe.mpr (hperm.filter _)
          have e2 : (↑((List.filter (fun f => decide (f.intersects sub))
                  (x :: L)).flatMap (residuals sub)) : Multiset Rectangle)
              = ↑((List.filter (fun f => decide (f.intersects sub))
                  (L ++ [x])).flatMap (residuals sub)) :=
            Multiset.coe_eq_coe.mpr (List.Perm.flatMap_right _ (hperm.filter _))
          rw [e1, e2]
          rw [List.filter_cons, List.filter_cons]
          simp only [hm, decide_True, Bool.not_true, if_false, if_true,
            List.flatMap_cons, hres, List.nil_append]
          try simp only [coe_cons_eq, ← Multiset.coe_add]
          try abel
    · rw [if_neg hm]
      have IH1 := subtract_loop_multiset sub M2 (P ++ [m]) T
      simp only [List.append_assoc, List.singleton_append, List.cons_append, List.nil_append,
        List.length_append, List.length_singleton] at IH1
      rw [IH1]
      rw [List.filter_cons, List.filter_cons]
      simp only [hm, decide_False, Bool.not_false, if_true, if_false, List.flatMap_cons]
      simp only [coe_cons_eq, ← Multiset.coe_add]
      abel
termination_by M.length
decreasing_by
  all_goals simp_wf
  all_goals rw [hM2, List.concat_eq_append]
  all_goals simp

/-- Reading the element just after a prefix, index given as an equation. -/
theorem getElem_middle {α : Type} (X : List α) (c : α) (C : List α) (n : Nat)
    (hn : n = X.length) (h : n < (X ++ c :: C).length) :
    (X ++ c :: C)[n] = c := by
  subst hn
  exact getElem_append_cons X c C h

/-- Full specification of prune_inner: on a list decomposed as
A ++ a :: (B ++ C) with i pointing at a and j at the head of C, where the
elements of B are already known to be subset-incomparable with a, the loop
keeps the prefix A, replaces a by some survivor b, keeps a sub-multiset of the
suffix, and ends with b subset-incomparable with everything after it. -/
theorem prune_inner_spec (l : List Rectangle) (i j : Nat) (hij : i < j) :
    ∀ (A : List Rectangle) (a : Rectangle) (B C : List Rectangle),
    l = A ++ a :: (B ++ C) → i = A.length → j = A.length + 1 + B.length →
    (∀ x ∈ B, ¬ a.supersets x ∧ ¬ x.supersets a) →
    ∃ b rest, prune_inner l i j hij = A ++ b :: rest ∧
      (↑(b :: rest) : Multiset Rectangle) ≤ ↑(a :: (B ++ C)) ∧
      ∀ x ∈ rest, ¬ b.supersets x ∧ ¬ x.supersets b := by
  induction l, i, j, hij using prune_inner.induct with
  | case1 l i j hij h hab ih =>
    intro A a B C hl hi hj hprev
    subst hl hi hj
    rcases C with _ | ⟨c, C2⟩
    · exfalso
      simp only [List.length_append, List.length_cons, List.append_nil] at h
      omega
    have e1 : ∀ hh, (A ++ a :: (B ++ c :: C2)).get ⟨A.length, hh⟩ = a := by
      intro hh
      rw [List.get_eq_getElem]
      exact getElem_append_cons _ _ _ _
    have e2 : ∀ hh, (A ++ a :: (B ++ c :: C2)).get
        ⟨A.length + 1 + B.length, hh⟩ = c := by
      intro hh
      rw [List.get_eq_getElem]
      rw [List.getElem_of_eq
        (show A ++ a :: (B ++ c :: C2) = (A ++ a :: B) ++ c :: C2 from by simp)]
      exact getElem_middle (A ++ a :: B) c C2 _
        (by simp only [Fin.val_mk, List.length_append, List.length_cons]; omega) _
    rw [e1, e2] at hab
    rw [prune_inner, dif_pos h, e1, e2, if_pos hab]
    rcases List.eq_nil_or_concat C2 with rfl | ⟨C3, y, hC2⟩
    · have hsw : swap_remove (A ++ a :: (B ++ c :: ([] : List Rectangle)))
          (A.length + 1 + B.length) = A ++ a :: (B ++ []) := by
        rw [show A ++ a :: (B ++ c :: ([] : List Rectangle))
            = (A ++ a :: B) ++ [c] from by simp]
        rw [show A.length + 1 + B.length = (A ++ a :: B).length from by
          rw [List.length_append, List.length_cons]; omega]
        rw [swap_remove_concat_self]
        simp
      obtain ⟨b, rest, h1, h2, h3⟩ := ih A a B [] hsw rfl rfl hprev
      refine ⟨b, rest, h1, le_trans h2 ?_, h3⟩
      apply Multiset.le_iff_exists_add.mpr ⟨{c}, ?_⟩
      simp only [coe_cons_eq, ← Multiset.coe_add, Multiset.coe_nil]
      abel
    · rw [List.concat_eq_append] at hC2
      subst hC2
      have hsw : swap_remove (A ++ a :: (B ++ c :: (C3 ++ [y])))
          (A.length + 1 + B.length) = A ++ a :: (B ++ (y :: C3)) := by
        rw [show A ++ a :: (B ++ c :: (C3 ++ [y]))
            = (A ++ a :: B) ++ c :: (C3 ++ [y]) from by simp]
        rw [show A.length + 1 + B.length = (A ++ a :: B).length from by
          rw [List.length_append, List.length_cons]; omega]
        rw [swap_remove_append_concat]
        simp
      obtain ⟨b, rest, h1, h2, h3⟩ := ih A a B (y :: C3) hsw rfl rfl hprev
      refine ⟨b, rest, h1, le_trans h2 ?_, h3⟩
      apply Multiset.le_iff_exists_add.mpr ⟨{c}, ?_⟩
      simp only [coe_cons_eq, ← Multiset.coe_add, Multiset.coe_nil]
      abel
  | case2 l i j hij h hab hba ih =>
    intro A a B C hl hi hj hprev
    subst hl hi hj
    rcases C with _ | ⟨c, C2⟩
    · exfalso
      simp only [List.length_append, List.length_cons, List.append_nil] at h
      omega
    have e1 : ∀ hh, (A ++ a :: (B ++ c :: C2)).get ⟨A.length, hh⟩ = a := by
      intro hh
      rw [List.get_eq_getElem]
      exact getElem_append_cons _ _ _ _
    have e2 : ∀ hh, (A ++ a :: (B ++ c :: C2)).get
        ⟨A.length + 1 + B.length, hh⟩ = c := by
      intro hh
      rw [List.get_eq_getElem]
      rw [List.getElem_of_eq
        (show A ++ a :: (B ++ c :: C2) = (A ++ a :: B) ++ c :: C2 from by simp)]
      exact getElem_middle (A ++ a :: B) c C2 _
        (by simp only [Fin.val_mk, List.length_append, List.length_cons]; omega) _
    rw [e1, e2] at hab hba
    rw [prune_inner, dif_pos h, e1, e2, if_neg hab, if_pos hba]
    rcases List.eq_nil_or_concat (B ++ c :: C2) with hR | ⟨R2, y, hR⟩
    · exfalso
      simp at hR
    rw [List.concat_eq_append] at hR
    have hsw : swap_remove (A ++ a :: (B ++ c :: C2)) A.length
        = A ++ y :: ([] ++ R2) := by
      rw [show A ++ a :: (B ++ c :: C2) = A ++ a :: (R2 ++ [y]) from by rw [hR]]
      rw [swap_remove_append_concat]
      simp
    obtain ⟨b, rest, h1, h2, h3⟩ := ih A y [] R2 hsw rfl rfl
      (fun x hx => absurd hx (List.not_mem_nil x))
    refine ⟨b, rest, h1, le_trans h2 ?_, h3⟩
    apply Multiset.le_iff_exists_add.mpr ⟨{a}, ?_⟩
    rw [show B ++ c :: C2 = R2 ++ [y] from hR]
    simp only [coe_cons_eq, ← Multiset.coe_add, Multiset.coe_nil]
    abel
  | case3 l i j hij h hab hba ih =>
    intro A a B C hl hi hj hprev
    subst hl hi hj
    rcases C with _ | ⟨c, C2⟩
    · exfalso
      simp only [List.length_append, List.length_cons, List.append_nil] at h
      omega
    have e1 : ∀ hh, (A ++ a :: (B ++ c :: C2)).get ⟨A.length, hh⟩ = a := by
      intro hh
      rw [List.get_eq_getElem]
      exact getElem_append_cons _ _ _ _
    have e2 : ∀ hh, (A ++ a :: (B ++ c :: C2)).get
        ⟨A.length + 1 + B.length, hh⟩ = c := by
      intro hh
      rw [List.get_eq_getElem]
      rw [List.getElem_of_eq
        (show A ++ a :: (B ++ c :: C2) = (A ++ a :: B) ++ c :: C2 from by simp)]
      exact getElem_middle (A ++ a :: B) c C2 _
        (by simp only [Fin.val_mk, List.length_append, List.length_cons]; omega) _
    rw [e1, e2] at hab hba
    rw [prune_inner, dif_pos h, e1, e2, if_neg hab, if_neg hba]
    have hprev2 : ∀ x ∈ B ++ [c], ¬ a.supersets x ∧ ¬ x.supersets a := by
      intro x hx
      rcases List.mem_append.mp hx with hx | hx
      · exact hprev x hx
      · rw [List.mem_singleton] at hx
        subst hx
        exact ⟨hab, hba⟩
    obtain ⟨b, rest, h1, h2, h3⟩ := ih A a (B ++ [c]) C2
      (by simp) rfl (by rw [List.length_append, List.length_singleton]; omega) hprev2
    rw [show (B ++ [c]) ++ C2 = B ++ c :: C2 from by simp] at h2
    exact ⟨b, rest, h1, h2, h3⟩
  | case4 l i j hij h =>
    intro A a B C hl hi hj hprev
    subst hl hi hj
    have hC : C = [] := by
      apply List.length_eq_zero.mp
      simp only [List.length_append, List.length_cons] at h
      omega
    subst hC
    refine ⟨a, B ++ [], ?_, le_refl _, ?_⟩
    · rw [prune_inner, dif_neg h]
    · intro x hx
      exact hprev x (by simpa using hx)

/-- Full specification of prune_outer: starting from a position i splitting the
list into a pairwise subset-incomparable prefix A (also incomparable with the
rest R), the loop ends with a pairwise subset-incomparable list. -/
theorem prune_outer_spec (l : List Rectangle) (i : Nat) :
    ∀ (A R : List Rectangle), l = A ++ R → i = A.length →
    List.Pairwise (fun u v => ¬ u.supersets v ∧ ¬ v.supersets u) A →
    (∀ x ∈ A, ∀ y ∈ R, ¬ x.supersets y ∧ ¬ y.supersets x) →
    List.Pairwise (fun u v => ¬ u.supersets v ∧ ¬ v.supersets u)
      (prune_outer l i) := by
  induction l, i using prune_outer.induct with
  | case1 l i h ih =>
    intro A R hl hi hA hAR
    subst hl hi
    rcases R with _ | ⟨a, R2⟩
    · exfalso
      simp at h
    rw [prune_outer, dif_pos h]
    obtain ⟨b, rest, h1, h2, h3⟩ :=
      prune_inner_spec (A ++ a :: R2) A.length (A.length + 1)
        (Nat.lt_succ_self _) A a [] R2 (by simp) rfl rfl
        (fun x hx => absurd hx (List.not_mem_nil x))
    have hb : b ∈ a :: R2 := by
      have hb0 : b ∈ (↑(b :: rest) : Multiset Rectangle) := by
        rw [Multiset.mem_coe]
        exact List.mem_cons_self b rest
      have := Multiset.mem_of_le h2 hb0
      simpa using this
    have hrest : ∀ y ∈ rest, y ∈ a :: R2 := by
      intro y hy
      have hy2 : y ∈ (↑(b :: rest) : Multiset Rectangle) := by
        rw [Multiset.mem_coe]
        exact List.mem_cons_of_mem b hy
      have := Multiset.mem_of_le h2 hy2
      simpa using this
    apply ih (A ++ [b]) rest (h1.trans (by simp)) (by simp)
    · rw [List.pairwise_append]
      refine ⟨hA, by simp, ?_⟩
      intro x hx y hy
      rw [List.mem_singleton] at hy
      rw [hy]
      exact hAR x hx b hb
    · intro x hx y hy
      rcases List.mem_append.mp hx with hx | hx
      · exact hAR x hx y (hrest y hy)
      · rw [List.mem_singleton] at hx
        rw [hx]
        exact h3 y hy
  | case2 l i h =>
    intro A R hl hi hA hAR
    subst hl hi
    have hR : R = [] := by
      apply List.length_eq_zero.mp
      simp only [List.length_append] at h
      omega
    subst hR
    rw [prune_outer, dif_neg h]
    simpa using hA

/-- Membership closure of prune_inner. -/
theorem mem_prune_inner {l : List Rectangle} {i j : Nat} {hij : i < j}
    {x : Rectangle} (hx : x ∈ prune_inner l i j hij) : x ∈ l := by
  induction l, i, j, hij using prune_inner.induct with
  | case1 l i j hij h hab ih =>
    rw [prune_inner, dif_pos h, if_pos hab] at hx
    exact mem_swap_remove (ih hx)
  | case2 l i j hij h hab hba ih =>
    rw [prune_inner, dif_pos h, if_neg hab, if_pos hba] at hx
    exact mem_swap_remove (ih hx)
  | case3 l i j hij h hab hba ih =>
    rw [prune_inner, dif_pos h, if_neg hab, if_neg hba] at hx
    exact ih hx
  | case4 l i j hij h =>
    rw [prune_inner, dif_neg h] at hx
    exact hx

/-- Membership closure of prune_outer. -/
theorem mem_prune_outer {l : List Rectangle} {i : Nat} {x : Rectangle}
    (hx : x ∈ prune_outer l i) : x ∈ l := by
  induction l, i using prune_outer.induct with
  | case1 l i h ih =>
    rw [prune_outer, dif_pos h] at hx
    exact mem_prune_inner (ih hx)
  | case2 l i h =>
    rw [prune_outer, dif_neg h] at hx
    exact hx

/-- The splitting loop at the top-level call, as a multiset identity. -/
theorem subtract_loop_run (sub : Rectangle) (l : List Rectangle) :
    (↑(subtract_loop sub l 0 0) : Multiset Rectangle) =
      ↑(l.filter fun f => !decide (f.intersects sub)) +
      ↑((l.filter fun f => decide (f.intersects sub)).flatMap (residuals sub)) := by
  have h := subtract_loop_multiset sub l [] []
  simp only [List.nil_append, List.append_nil, List.length_nil] at h
  rw [h]
  simp

/-- Every rectangle in the free list after subtract_rect does not intersect the
subtracted rectangle, and is contained in some rectangle of the previous free
list.  Well-formedness is also preserved elementwise. -/
theorem subtract_rect_mem {sub : Rectangle} {l : List Rectangle} {x : Rectangle}
    (hx : x ∈ subtract_rect sub l) :
    ¬ x.intersects sub ∧ ∃ f ∈ l, f.supersets x ∧ (WellFormed f → WellFormed x) := by
  unfold subtract_rect at hx
  have hx2 : x ∈ subtract_loop sub l 0 0 := mem_prune_outer hx
  have hms : x ∈ (↑(subtract_loop sub l 0 0) : Multiset Rectangle) := by
    simpa using hx2
  rw [subtract_loop_run] at hms
  rcases Multiset.mem_add.mp hms with hm | hm
  · rw [Multiset.mem_coe, List.mem_filter] at hm
    obtain ⟨hmem, hp⟩ := hm
    simp only [Bool.not_eq_true', decide_eq_false_iff_not] at hp
    exact ⟨hp, x, hmem, Rectangle.supersets_refl x, fun h => h⟩
  · rw [Multiset.mem_coe, List.mem_flatMap] at hm
    obtain ⟨f, hf, hxf⟩ := hm
    rw [List.mem_filter] at hf
    obtain ⟨hfmem, hfp⟩ := hf
    rw [decide_eq_true_eq] at hfp
    exact ⟨residuals_not_intersects hxf, f, hfmem,
      residuals_supersets hfp hxf, fun h => residuals_wf h hxf⟩

/-- C3: after every subtract_rect call, for any two positionally distinct
rectangles remaining in the free list, neither is a non-strict superset of the
other; in particular no retained free rectangle is a proper subset of another
and of two equal rectangles at most one survives. -/
theorem subtract_rect_nonredundant (sub : Rectangle) (l : List Rectangle) :
    List.Pairwise (fun u v => ¬ u.supersets v ∧ ¬ v.supersets u)
      (subtract_rect sub l) := by
  unfold subtract_rect
  exact prune_outer_spec _ 0 [] _ rfl rfl List.Pairwise.nil (by simp)

/-- min_cmp returns none exactly on the empty list. -/
theorem min_cmp_eq_none {α : Type} {l : List α} {cmp : α → α → Ordering} :
    min_cmp l cmp = none ↔ l = [] := by
  cases l with
  | nil => simp [min_cmp]
  | cons a t =>
    simp only [List.cons_ne_nil, iff_false]
    intro h
    have := min_cmp_isSome a t cmp
    rw [h] at this
    simp at this

/-- Unfolding min_cmp over its first two elements. -/
theorem min_cmp_cons_cons {α : Type} (cmp : α → α → Ordering) (m b : α)
    (t : List α) :
    min_cmp (m :: b :: t) cmp =
      min_cmp ((match cmp m b with | Ordering.gt => b | _ => m) :: t) cmp := by
  cases h : cmp m b <;> simp [min_cmp, List.foldl_cons, h]

/-- The element selected by min_cmp with the score comparator is the first
element attaining the minimal score: everything before it is strictly larger,
everything anywhere is at least it. -/
theorem min_cmp_snd_spec_aux {α : Type} :
    ∀ (t : List (α × Int)) (m x : α × Int),
    min_cmp (m :: t) (fun a b => compare a.2 b.2) = some x →
    (x = m ∧ ∀ y ∈ t, m.2 ≤ y.2) ∨
    (∃ c1 c2, t = c1 ++ x :: c2 ∧ x.2 < m.2 ∧ (∀ y ∈ t, x.2 ≤ y.2) ∧
      ∀ y ∈ c1, x.2 < y.2) := by
  intro t
  induction t with
  | nil =>
    intro m x h
    simp [min_cmp] at h
    exact Or.inl ⟨h.symm, by simp⟩
  | cons b t2 ih =>
    intro m x h
    rw [min_cmp_cons_cons] at h
    cases hcmp : compare m.2 b.2 with
    | gt =>
      rw [hcmp] at h
      have hbm : b.2 < m.2 := compare_gt_iff_gt.mp hcmp
      rcases ih b x h with ⟨rfl, hall⟩ | ⟨c1, c2, rfl, hxb, hall, hc1⟩
      · exact Or.inr ⟨[], t2, rfl, hbm, by
          intro y hy
          rcases List.mem_cons.mp hy with rfl | hy
          · exact le_refl _
          · exact hall y hy, by simp⟩
      · refine Or.inr ⟨b :: c1, c2, rfl, lt_trans hxb hbm, ?_, ?_⟩
        · intro y hy
          rcases List.mem_cons.mp hy with rfl | hy
          · exact le_of_lt hxb
          · exact hall y hy
        · intro y hy
          rcases List.mem_cons.mp hy with rfl | hy
          · exact hxb
          · exact hc1 y hy
    | lt =>
      rw [hcmp] at h
      have hmb : m.2 < b.2 := compare_lt_iff_lt.mp hcmp
      rcases ih m x h with ⟨rfl, hall⟩ | ⟨c1, c2, rfl, hxm, hall, hc1⟩
      · refine Or.inl ⟨rfl, ?_⟩
        intro y hy
        rcases List.mem_cons.mp hy with rfl | hy
        · exact le_of_lt hmb
        · exact hall y hy
      · refine Or.inr ⟨b :: c1, c2, rfl, hxm, ?_, ?_⟩
        · intro y hy
          rcases List.mem_cons.mp hy with rfl | hy
          · exact le_of_lt (lt_of_lt_of_le hxm (le_of_lt hmb))
          · exact hall y hy
        · intro y hy
          rcases List.mem_cons.mp hy with rfl | hy
          · exact lt_of_lt_of_le hxm (le_of_lt hmb)
          · exact hc1 y hy
    | eq =>
      rw [hcmp] at h
      have hmb : m.2 = b.2 := compare_eq_iff_eq.mp hcmp
      rcases ih m x h with ⟨rfl, hall⟩ | ⟨c1, c2, rfl, hxm, hall, hc1⟩
      · refine Or.inl ⟨rfl, ?_⟩
        intro y hy
        rcases List.mem_cons.mp hy with rfl | hy
        · exact le_of_eq hmb
        · exact hall y hy
      · refine Or.inr ⟨b :: c1, c2, rfl, hxm, ?_, ?_⟩
        · intro y hy
          rcases List.mem_cons.mp hy with rfl | hy
          · exact le_of_lt (lt_of_lt_of_eq hxm hmb)
          · exact hall y hy
        · intro y hy
          rcases List.mem_cons.mp hy with rfl | hy
          · exact lt_of_lt_of_eq hxm hmb
          · exact hc1 y hy

/-- Append-form characterisation of min_cmp with the score comparator. -/
theorem min_cmp_snd_spec {α : Type} {l : List (α × Int)} {x : α × Int}
    (h : min_cmp l (fun a b => compare a.2 b.2) = some x) :
    ∃ c1 c2, l = c1 ++ x :: c2 ∧ (∀ y ∈ l, x.2 ≤ y.2) ∧ ∀ y ∈ c1, x.2 < y.2 := by
  cases l with
  | nil => simp [min_cmp] at h
  | cons m t =>
    rcases min_cmp_snd_spec_aux t m x h with ⟨rfl, hall⟩ | ⟨c1, c2, rfl, hxm, hall, hc1⟩
    · refine ⟨[], t, rfl, ?_, by simp⟩
      intro y hy
      rcases List.mem_cons.mp hy with rfl | hy
      · exact le_refl _
      · exact hall y hy
    · refine ⟨m :: c1, c2, rfl, ?_, ?_⟩
      · intro y hy
        rcases List.mem_cons.mp hy with rfl | hy
        · exact le_of_lt hxm
        · exact hall y hy
      · intro y hy
        rcases List.mem_cons.mp hy with rfl | hy
        · exact hxm
        · exact hc1 y hy

/-- Decomposing a filterMap that yields an append around a distinguished element. -/
theorem filterMap_eq_append_cons {α β : Type} {g : α → Option β} :
    ∀ {l : List α} {c1 : List β} {x : β} {c2 : List β},
    l.filterMap g = c1 ++ x :: c2 →
    ∃ l1 y l2, l = l1 ++ y :: l2 ∧ g y = some x ∧ l1.filterMap g = c1 ∧
      l2.filterMap g = c2 := by
  intro l
  induction l with
  | nil =>
    intro c1 x c2 h
    rw [List.filterMap_nil] at h
    exact absurd h.symm (by simp)
  | cons a t ih =>
    intro c1 x c2 h
    rw [List.filterMap_cons] at h
    cases hg : g a with
    | none =>
      rw [hg] at h
      obtain ⟨l1, y, l2, rfl, hy, h1, h2⟩ := ih h
      exact ⟨a :: l1, y, l2, rfl, hy, by rw [List.filterMap_cons, hg]; exact h1, h2⟩
    | some b =>
      rw [hg] at h
      cases c1 with
      | nil =>
        rw [List.nil_append] at h
        have hb : b = x := (List.cons.injEq _ _ _ _ ▸ h).1
        have ht : t.filterMap g = c2 := (List.cons.injEq _ _ _ _ ▸ h).2
        exact ⟨[], a, t, rfl, by rw [hg, hb], by simp, ht⟩
      | cons c c1t =>
        rw [List.cons_append] at h
        have hb : b = c := (List.cons.injEq _ _ _ _ ▸ h).1
        have ht : t.filterMap g = c1t ++ x :: c2 := (List.cons.injEq _ _ _ _ ▸ h).2
        obtain ⟨l1, y, l2, rfl, hy, h1, h2⟩ := ih ht
        exact ⟨a :: l1, y, l2, rfl, hy, by
          rw [List.filterMap_cons, hg, h1, hb], h2⟩

/-- bssf on a rectangle succeeds exactly when the rectangle can contain the
size, and then returns the spec score. -/
theorem bssf_eq_some_iff (r : Rectangle) (size : Int × Int) (h : Int) :
    bssf r.dimensions size = some h ↔ canContain r size ∧ h = score r size := by
  unfold bssf canContain score
  by_cases hc : r.dimensions.1 ≥ size.1 ∧ r.dimensions.2 ≥ size.2
  · simp [hc, eq_comm]
  · simp [hc]

/-- bssf fails exactly when the rectangle cannot contain the size. -/
theorem bssf_eq_none_iff (r : Rectangle) (size : Int × Int) :
    bssf r.dimensions size = none ↔ ¬ canContain r size := by
  unfold bssf canContain
  by_cases hc : r.dimensions.1 ≥ size.1 ∧ r.dimensions.2 ≥ size.2
  · simp [hc]
  · simp [hc]

/-- optimal returns none exactly when no free rectangle can contain the size. -/
theorem optimal_none_iff (l : List Rectangle) (size : Int × Int) :
    optimal l size = none ↔ ∀ r ∈ l, ¬ canContain r size := by
  unfold optimal
  rw [Option.map_eq_none', min_cmp_eq_none, List.filterMap_eq_nil_iff]
  constructor
  · intro h r hr hc
    have := h r hr
    rw [Option.map_eq_none', bssf_eq_none_iff] at this
    exact this hc
  · intro h r hr
    rw [Option.map_eq_none', bssf_eq_none_iff]
    exact h r hr

/-- When optimal succeeds, the free list splits around the chosen rectangle:
it can contain the size, the returned position is its min corner, the returned
score is its spec score, it is minimal among all fitting rectangles, and it
strictly beats every fitting rectangle before it (first-wins tie-break). -/
theorem optimal_some_spec {l : List Rectangle} {size pos : Int × Int} {h : Int}
    (ho : optimal l size = some (pos, h)) :
    ∃ l1 r l2, l = l1 ++ r :: l2 ∧ canContain r size ∧ pos = r.min ∧
      h = score r size ∧
      (∀ q ∈ l, canContain q size → h ≤ score q size) ∧
      (∀ q ∈ l1, canContain q size → h < score q size) := by
  unfold optimal at ho
  rw [Option.map_eq_some'] at ho
  obtain ⟨x, hmin, hx⟩ := ho
  obtain ⟨c1, c2, hcands, hall, hfirst⟩ := min_cmp_snd_spec hmin
  obtain ⟨l1, r, l2, rfl, hgr, hl1, hl2⟩ := filterMap_eq_append_cons hcands
  rw [Option.map_eq_some'] at hgr
  obtain ⟨hr, hbssf, hxr⟩ := hgr
  rw [bssf_eq_some_iff] at hbssf
  obtain ⟨hcan, hscore⟩ := hbssf
  have hx1 : x.1 = r := by rw [← hxr]
  have hx2 : x.2 = hr := by rw [← hxr]
  have hpos : pos = r.min := by
    have h2 := congrArg Prod.fst hx
    simp only at h2
    rw [← h2, hx1]
  have hh : h = score r size := by
    have h2 := congrArg Prod.snd hx
    simp only at h2
    rw [← h2, hx2, hscore]
  refine ⟨l1, r, l2, rfl, hcan, hpos, hh, ?_, ?_⟩
  · intro q hq hqc
    have hmem : (q, score q size) ∈
        (l1 ++ r :: l2).filterMap fun y =>
          (bssf y.dimensions size).map fun s => (y, s) := by
      rw [List.mem_filterMap]
      exact ⟨q, hq, by rw [(bssf_eq_some_iff q size (score q size)).mpr ⟨hqc, rfl⟩]; rfl⟩
    have := hall (q, score q size) hmem
    rw [hx2] at this
    rw [hh, ← hscore]
    exact this
  · intro q hq hqc
    have hmem : (q, score q size) ∈ l1.filterMap fun y =>
        (bssf y.dimensions size).map fun s => (y, s) := by
      rw [List.mem_filterMap]
      exact ⟨q, hq, by rw [(bssf_eq_some_iff q size (score q size)).mpr ⟨hqc, rfl⟩]; rfl⟩
    rw [hl1] at hmem
    have := hfirst (q, score q size) hmem
    rw [hx2] at this
    rw [hh, ← hscore]
    exact this

/-- Successful add_free appends exactly one rectangle and certifies its bounds. -/
theorem add_free_some {st : List Rectangle} {mn mx : Int × Int}
    {st2 : List Rectangle} (h : add_free st mn mx = some st2) :
    st2 = st ++ [Rectangle.mk mn mx] ∧ mn.1 ≤ mx.1 ∧ mn.2 ≤ mx.2 := by
  unfold add_free at h
  by_cases h1 : mn.1 > mx.1
  · simp [h1] at h
  · by_cases h2 : mn.2 > mx.2
    · simp [h1, h2] at h
    · simp only [h1, h2, if_false, Option.some_inj] at h
      exact ⟨h.symm, by omega, by omega⟩

/-- add_free fails exactly on inverted bounds. -/
theorem add_free_none_iff (st : List Rectangle) (mn mx : Int × Int) :
    add_free st mn mx = none ↔ mn.1 > mx.1 ∨ mn.2 > mx.2 := by
  unfold add_free
  by_cases h1 : mn.1 > mx.1
  · simp [h1]
  · by_cases h2 : mn.2 > mx.2
    · simp [h1, h2]
    · simp [h1, h2]

/-- A successful pack comes from a successful optimal lookup, and the new free
list is the subtraction of the occupied rectangle. -/
theorem pack_some {st : List Rectangle} {w h : Int} {pos : Int × Int}
    {st2 : List Rectangle} (hp : pack st w h = (some pos, st2)) :
    ∃ sc, optimal st (w, h) = some (pos, sc) ∧
      st2 = subtract_rect (Rectangle.mk pos (pos.1 + w, pos.2 + h)) st := by
  unfold pack at hp
  cases ho : optimal st (w, h) with
  | none =>
    rw [ho] at hp
    simp at hp
  | some q =>
    cases q with
    | mk q1 q2 =>
      rw [ho] at hp
      simp only [Prod.mk.injEq, Option.some_inj] at hp
      obtain ⟨hpos, hst⟩ := hp
      subst hpos
      exact ⟨q2, rfl, hst.symm⟩

/-- pack reports failure exactly when optimal does. -/
theorem pack_fst_none_iff (st : List Rectangle) (w h : Int) :
    (pack st w h).1 = none ↔ optimal st (w, h) = none := by
  unfold pack
  cases ho : optimal st (w, h) with
  | none => simp
  | some q =>
    cases q with
    | mk q1 q2 => simp

/-- On failure pack leaves the free list untouched. -/
theorem pack_none_state (st : List Rectangle) (w h : Int)
    (hn : (pack st w h).1 = none) : (pack st w h).2 = st := by
  unfold pack at hn ⊢
  cases ho : optimal st (w, h) with
  | none => simp
  | some q =>
    cases q with
    | mk q1 q2 =>
      rw [ho] at hn
      simp at hn

/-- The chosen free rectangle of a successful optimal lookup. -/
theorem optimal_chosen {st : List Rectangle} {size pos : Int × Int} {h : Int}
    (ho : optimal st size = some (pos, h)) :
    ∃ f ∈ st, f.min = pos ∧ canContain f size := by
  obtain ⟨l1, r, l2, rfl, hcan, hpos, -, -, -⟩ := optimal_some_spec ho
  exact ⟨r, by simp, hpos.symm, hcan⟩

/-- The free rectangle chosen for a placement contains the occupied rectangle. -/
theorem supersets_occupied {f : Rectangle} {size pos : Int × Int}
    (hmin : f.min = pos) (hcan : canContain f size) :
    f.supersets (Rectangle.mk pos (pos.1 + size.1, pos.2 + size.2)) := by
  obtain ⟨h1, h2⟩ := hcan
  unfold Rectangle.dimensions at h1 h2
  have e1 : f.min.1 = pos.1 := by rw [hmin]
  have e2 : f.min.2 = pos.2 := by rw [hmin]
  refine ⟨le_of_eq e1, le_of_eq e2, ?_, ?_⟩
  · show f.max.1 ≥ pos.1 + size.1
    omega
  · show f.max.2 ≥ pos.2 + size.2
    omega

/-- One committed placement preserves the disjointness invariant. -/
theorem place_step_disj {st placed : List Rectangle} {size pos : Int × Int}
    {h : Int} (ho : optimal st size = some (pos, h))
    (hst : ∀ r ∈ st, ∀ p ∈ placed, ¬ r.intersects p)
    (hpw : List.Pairwise (fun u v => ¬ u.intersects v) placed) :
    (∀ r ∈ subtract_rect (Rectangle.mk pos (pos.1 + size.1, pos.2 + size.2)) st,
      ∀ p ∈ placed ++ [Rectangle.mk pos (pos.1 + size.1, pos.2 + size.2)],
        ¬ r.intersects p) ∧
    List.Pairwise (fun u v => ¬ u.intersects v)
      (placed ++ [Rectangle.mk pos (pos.1 + size.1, pos.2 + size.2)]) := by
  obtain ⟨f, hf, hfmin, hfcan⟩ := optimal_chosen ho
  have hsup := supersets_occupied hfmin hfcan
  constructor
  · intro r hr p hp
    obtain ⟨hnint, g, hg, hgsup, -⟩ := subtract_rect_mem hr
    rcases List.mem_append.mp hp with hp | hp
    · intro hint
      exact hst g hg p hp (Rectangle.intersects_of_supersets hgsup hint)
    · rw [List.mem_singleton] at hp
      rw [hp]
      exact hnint
  · rw [List.pairwise_append]
    refine ⟨hpw, by simp, ?_⟩
    intro p hp y hy
    rw [List.mem_singleton] at hy
    rw [hy]
    intro hint
    exact hst f hf p hp
      (Rectangle.intersects_of_supersets hsup (Rectangle.intersects_symm hint))

/-- One committed placement preserves containment in the registered area and
well-formedness of the free list. -/
theorem place_step_cont {regs st placed : List Rectangle} {size pos : Int × Int}
    {h : Int} (ho : optimal st size = some (pos, h))
    (h1 : ∀ r ∈ st, rectSet r ⊆ coveredBy regs)
    (h2 : ∀ p ∈ placed, rectSet p ⊆ coveredBy regs)
    (h3 : ∀ r ∈ st, WellFormed r) :
    (∀ r ∈ subtract_rect (Rectangle.mk pos (pos.1 + size.1, pos.2 + size.2)) st,
      rectSet r ⊆ coveredBy regs) ∧
    (∀ p ∈ placed ++ [Rectangle.mk pos (pos.1 + size.1, pos.2 + size.2)],
      rectSet p ⊆ coveredBy regs) ∧
    (∀ r ∈ subtract_rect (Rectangle.mk pos (pos.1 + size.1, pos.2 + size.2)) st,
      WellFormed r) := by
  obtain ⟨f, hf, hfmin, hfcan⟩ := optimal_chosen ho
  have hsup := supersets_occupied hfmin hfcan
  refine ⟨?_, ?_, ?_⟩
  · intro r hr
    obtain ⟨-, g, hg, hgsup, -⟩ := subtract_rect_mem hr
    exact subset_trans (rectSet_mono hgsup) (h1 g hg)
  · intro p hp
    rcases List.mem_append.mp hp with hp | hp
    · exact h2 p hp
    · rw [List.mem_singleton] at hp
      rw [hp]
      exact subset_trans (rectSet_mono hsup) (h1 f hf)
  · intro r hr
    obtain ⟨-, g, hg, -, hwf⟩ := subtract_rect_mem hr
    exact hwf (h3 g hg)

/-- swap_remove deletes exactly the element at the given index, as multisets. -/
theorem swap_remove_multiset {α : Type} (l : List α) (i : Nat)
    (h : i < l.length) :
    (↑(swap_remove l i) : Multiset α) + {l.get ⟨i, h⟩} = ↑l := by
  have hdecomp : l = l.take i ++ l.get ⟨i, h⟩ :: l.drop (i + 1) := by
    rw [List.get_eq_getElem]
    conv =>
      lhs
      rw [← List.take_append_drop i l]
    rw [List.drop_eq_getElem_cons h]
  have hlen : i = (l.take i).length := by
    rw [List.length_take]
    omega
  have hsw : swap_remove l i
      = swap_remove (l.take i ++ l.get ⟨i, h⟩ :: l.drop (i + 1))
        (l.take i).length := by
    rw [← hdecomp, ← hlen]
  rcases List.eq_nil_or_concat (l.drop (i + 1)) with hnil | ⟨R2, y, hcat⟩
  · rw [hsw, hnil, swap_remove_concat_self]
    conv =>
      rhs
      rw [hdecomp, hnil]
    simp only [← Multiset.coe_add, Multiset.coe_singleton]
  · rw [List.concat_eq_append] at hcat
    rw [hsw, hcat, swap_remove_append_concat]
    conv =>
      rhs
      rw [hdecomp, hcat]
    simp only [coe_cons_eq, ← Multiset.coe_add, Multiset.coe_nil]
    abel

/-- Unfolding pack_global_go when a best pair is found. -/
theorem pack_global_go_eq_some {T : Type} {mapping : T → Int × Int}
    {st : List Rectangle} {objects : List T}
    (packed : List (T × (Int × Int))) {index : Nat} {pos size : Int × Int}
    (h : global_select mapping st objects = some (index, pos, size)) :
    pack_global_go mapping st objects packed =
      pack_global_go mapping
        (subtract_rect (Rectangle.mk pos (pos.1 + size.1, pos.2 + size.2)) st)
        (swap_remove objects index)
        (packed ++ [(objects.get ⟨index, global_select_lt h⟩, pos)]) := by
  rw [pack_global_go]
  split
  · rename_i index2 pos2 size2 heq
    rw [h] at heq
    injection heq with heq2
    injection heq2 with e1 e2
    subst e1
    injection e2 with e3 e4
    subst e3
    subst e4
    rfl
  · rename_i heq
    rw [h] at heq
    cases heq

/-- Unfolding pack_global_go when no remaining item has a placement. -/
theorem pack_global_go_eq_none {T : Type} {mapping : T → Int × Int}
    {st : List Rectangle} {objects : List T}
    (packed : List (T × (Int × Int)))
    (h : global_select mapping st objects = none) :
    pack_global_go mapping st objects packed =
      if objects.isEmpty then (st, Sum.inl packed)
      else (st, Sum.inr (FailedPacking.mk packed objects)) := by
  rw [pack_global_go]
  split
  · rename_i index2 pos2 size2 heq
    rw [h] at heq
    cases heq
  · rfl

/-- A successful global selection: the size is the mapped size of the indexed
object, the position comes from optimal on the current free list, and the
score is minimal over all remaining objects that have any placement. -/
theorem global_select_opt {T : Type} {mapping : T → Int × Int}
    {st : List Rectangle} {objects : List T} {index : Nat} {pos size : Int × Int}
    (h : global_select mapping st objects = some (index, pos, size)) :
    ∀ hidx : index < objects.length,
    size = mapping (objects.get ⟨index, hidx⟩) ∧
    ∃ sc, optimal st size = some (pos, sc) ∧
      ∀ (j : Nat) (hj : j < objects.length) (p2 : Int × Int) (h2 : Int),
        optimal st (mapping (objects.get ⟨j, hj⟩)) = some (p2, h2) → sc ≤ h2 := by
  intro hidx
  unfold global_select at h
  rw [Option.map_eq_some'] at h
  obtain ⟨x, hmin, hx⟩ := h
  obtain ⟨c1, c2, hcands, hall, -⟩ := min_cmp_snd_spec hmin
  have hxmem : x ∈ objects.enum.filterMap fun p =>
      (optimal st (mapping p.2)).map fun q => ((p.1, q.1, mapping p.2), q.2) :=
    min_cmp_mem hmin
  rw [List.mem_filterMap] at hxmem
  obtain ⟨p, hp, hpx⟩ := hxmem
  rw [Option.map_eq_some'] at hpx
  obtain ⟨q, hq, hqx⟩ := hpx
  have hx1 : x.1 = (p.1, q.1, mapping p.2) := by rw [← hqx]
  have hx2 : x.2 = q.2 := by rw [← hqx]
  rw [hx] at hx1
  have hidx2 : index = p.1 := congrArg (fun z => z.1) hx1
  subst hidx2
  have hpos : pos = q.1 := congrArg (fun z => z.2.1) hx1
  have hsize : size = mapping p.2 := congrArg (fun z => z.2.2) hx1
  rw [List.mem_enum_iff_getElem?] at hp
  obtain ⟨hh, he⟩ := List.getElem?_eq_some.mp hp
  have hobj : objects.get ⟨p.1, hidx⟩ = p.2 := by
    rw [List.get_eq_getElem]
    exact he
  constructor
  · rw [hobj, hsize]
  · refine ⟨q.2, ?_, ?_⟩
    · rw [hsize, hq, hpos]
    · intro j hj p2 h2 hopt2
      have hymem : ((j, p2, mapping (objects.get ⟨j, hj⟩)), h2) ∈
          objects.enum.filterMap fun p =>
            (optimal st (mapping p.2)).map fun q => ((p.1, q.1, mapping p.2), q.2) := by
        rw [List.mem_filterMap]
        refine ⟨(j, objects.get ⟨j, hj⟩), ?_, ?_⟩
        · rw [List.mem_enum_iff_getElem?]
          rw [List.get_eq_getElem]
          exact List.getElem?_eq_getElem hj
        · rw [hopt2]
          rfl
      have := hall _ hymem
      rw [hx2] at this
      exact this

/-- Outcome characterisation of the pack_global loop: on success the returned
pairs carry exactly the accumulator plus all remaining objects (as multisets);
on failure the placed pairs plus the unplaced remainder carry exactly them, the
remainder is nonempty, and no remaining object fits the final free list. -/
theorem pack_global_go_spec {T : Type} (mapping : T → Int × Int)
    (objects : List T) (st : List Rectangle) (packed : List (T × (Int × Int))) :
    (∀ v st2, pack_global_go mapping st objects packed = (st2, Sum.inl v) →
      (↑(v.map Prod.fst) : Multiset T) = ↑(packed.map Prod.fst) + ↑objects) ∧
    (∀ f st2, pack_global_go mapping st objects packed = (st2, Sum.inr f) →
      ((↑(f.placed.map Prod.fst) : Multiset T) + ↑f.original
        = ↑(packed.map Prod.fst) + ↑objects) ∧
      f.original ≠ [] ∧
      ∀ t ∈ f.original, optimal st2 (mapping t) = none) := by
  cases hsel : global_select mapping st objects with
  | some y =>
    obtain ⟨index, pos, size⟩ := y
    have hidx := global_select_lt hsel
    have hunf := pack_global_go_eq_some packed hsel
    have hrec := pack_global_go_spec mapping (swap_remove objects index)
      (subtract_rect (Rectangle.mk pos (pos.1 + size.1, pos.2 + size.2)) st)
      (packed ++ [(objects.get ⟨index, global_select_lt hsel⟩, pos)])
    have hkey : (↑((packed ++
          [(objects.get ⟨index, global_select_lt hsel⟩, pos)]).map Prod.fst) :
          Multiset T) + ↑(swap_remove objects index)
        = ↑(packed.map Prod.fst) + ↑objects := by
      rw [List.map_append]
      have hsm := swap_remove_multiset objects index hidx
      rw [← hsm]
      simp only [List.map_cons, List.map_nil, coe_cons_eq, ← Multiset.coe_add,
        Multiset.coe_nil]
      abel
    constructor
    · intro v st2 heq
      rw [hunf] at heq
      have h1 := hrec.1 v st2 heq
      rw [h1]
      exact hkey
    · intro f st2 heq
      rw [hunf] at heq
      obtain ⟨h1, h2, h3⟩ := hrec.2 f st2 heq
      exact ⟨by rw [h1]; exact hkey, h2, h3⟩
  | none =>
    have hunf := pack_global_go_eq_none packed hsel
    by_cases hobj : objects.isEmpty = true
    · constructor
      · intro v st2 heq
        rw [hunf, if_pos hobj] at heq
        simp only [Prod.mk.injEq, Sum.inl.injEq] at heq
        obtain ⟨hst2, hv⟩ := heq
        rw [List.isEmpty_iff] at hobj
        rw [← hv, hobj]
        simp
      · intro f st2 heq
        rw [hunf, if_pos hobj] at heq
        simp at heq
    · constructor
      · intro v st2 heq
        rw [hunf, if_neg hobj] at heq
        simp at heq
      · intro f st2 heq
        rw [hunf, if_neg hobj] at heq
        simp only [Prod.mk.injEq, Sum.inr.injEq] at heq
        obtain ⟨hst2, hf⟩ := heq
        subst hst2
        rw [← hf]
        refine ⟨rfl, ?_, ?_⟩
        · intro hnil
          apply hobj
          have h4 : objects = [] := hnil
          rw [h4]
          rfl
        · intro t ht
          unfold global_select at hsel
          rw [Option.map_eq_none', min_cmp_eq_none,
            List.filterMap_eq_nil_iff] at hsel
          obtain ⟨j, hj, he⟩ := List.mem_iff_getElem.mp ht
          have hmem : (j, t) ∈ objects.enum := by
            rw [List.mem_enum_iff_getElem?]
            rw [← he]
            exact List.getElem?_eq_getElem hj
          have := hsel (j, t) hmem
          rw [Option.map_eq_none'] at this
          exact this
termination_by objects.length
decreasing_by
  have h2 := swap_remove_length objects index
  omega

/-- Any invariant of the free list and the list of occupied rectangles that is
preserved by a single optimal-guided placement is preserved by the whole
pack_global loop. -/
theorem pack_global_go_inv {T : Type} (mapping : T → Int × Int)
    (Q : List Rectangle → List Rectangle → Prop)
    (hstep : ∀ st placedR size pos sc, optimal st size = some (pos, sc) →
      Q st placedR →
      Q (subtract_rect (Rectangle.mk pos (pos.1 + size.1, pos.2 + size.2)) st)
        (placedR ++ [Rectangle.mk pos (pos.1 + size.1, pos.2 + size.2)]))
    (objects : List T) (st : List Rectangle) (packed : List (T × (Int × Int)))
    (base : List Rectangle)
    (hQ : Q st (base ++ packed.map (occupiedOf mapping))) :
    Q (pack_global_go mapping st objects packed).1
      (base ++ (packedPart (pack_global_go mapping st objects packed).2).map
        (occupiedOf mapping)) := by
  cases hsel : global_select mapping st objects with
  | some y =>
    obtain ⟨index, pos, size⟩ := y
    obtain ⟨hsize, sc, hopt, -⟩ := global_select_opt hsel (global_select_lt hsel)
    have hunf := pack_global_go_eq_some packed hsel
    rw [hunf]
    have hQ2 : Q (subtract_rect
          (Rectangle.mk pos (pos.1 + size.1, pos.2 + size.2)) st)
        (base ++ (packed ++
          [(objects.get ⟨index, global_select_lt hsel⟩, pos)]).map
            (occupiedOf mapping)) := by
      rw [List.map_append]
      have hocc : (([(objects.get ⟨index, global_select_lt hsel⟩, pos)]).map
            (occupiedOf mapping))
          = [Rectangle.mk pos (pos.1 + size.1, pos.2 + size.2)] := by
        simp only [List.map_cons, List.map_nil, occupiedOf, hsize]
      rw [hocc, ← List.append_assoc]
      exact hstep st (base ++ packed.map (occupiedOf mapping)) size pos sc hopt hQ
    exact pack_global_go_inv mapping Q hstep (swap_remove objects index) _ _ base hQ2
  | none =>
    have hunf := pack_global_go_eq_none packed hsel
    rw [hunf]
    by_cases hobj : objects.isEmpty = true
    · rw [if_pos hobj]
      exact hQ
    · rw [if_neg hobj]
      exact hQ
termination_by objects.length
decreasing_by
  have h2 := swap_remove_length objects index
  have h3 := global_select_lt hsel
  omega

/-- Registering more area only grows the covered set. -/
theorem coveredBy_append_mono (regs L : List Rectangle) :
    coveredBy regs ⊆ coveredBy (regs ++ L) := by
  intro p hp
  obtain ⟨r, hr, hpr⟩ := hp
  exact ⟨r, List.mem_append_left L hr, hpr⟩

/-- Disjointness invariant of restricted reachable states: no free rectangle
intersects a placed rectangle, and placed rectangles are pairwise disjoint. -/
theorem reachedDisj_inv {regs st placed : List Rectangle}
    (h : ReachedDisj regs st placed) :
    (∀ r ∈ st, ∀ p ∈ placed, ¬ r.intersects p) ∧
    List.Pairwise (fun u v => ¬ u.intersects v) placed := by
  induction h with
  | init => exact ⟨by simp, List.Pairwise.nil⟩
  | add hprev hadd hdisj ih =>
    obtain ⟨hst2, -, -⟩ := add_free_some hadd
    subst hst2
    refine ⟨?_, ih.2⟩
    intro r hr p hp
    rcases List.mem_append.mp hr with hr | hr
    · exact ih.1 r hr p hp
    · rw [List.mem_singleton] at hr
      rw [hr]
      exact hdisj p hp
  | packStep hprev hpack ih =>
    obtain ⟨sc, hopt, hst2⟩ := pack_some hpack
    subst hst2
    exact place_step_disj hopt ih.1 ih.2
  | globalStep hprev hpg ih =>
    rename_i regs st placed st2 T mapping objects res
    have hinv := pack_global_go_inv mapping
      (fun s pr => (∀ r ∈ s, ∀ p ∈ pr, ¬ r.intersects p) ∧
        List.Pairwise (fun u v => ¬ u.intersects v) pr)
      (fun s pr size pos sc hopt hQ => place_step_disj hopt hQ.1 hQ.2)
      objects st [] placed (by simpa using ih)
    unfold pack_global at hpg
    rw [hpg] at hinv
    exact hinv

/-- Containment and well-formedness invariant of reachable states: every free
rectangle and every placed rectangle lies in the union of registered area, and
every free rectangle is well-formed. -/
theorem reached_inv {regs st placed : List Rectangle}
    (h : Reached regs st placed) :
    (∀ r ∈ st, rectSet r ⊆ coveredBy regs) ∧
    (∀ p ∈ placed, rectSet p ⊆ coveredBy regs) ∧
    (∀ r ∈ st, WellFormed r) := by
  induction h with
  | init => exact ⟨by simp, by simp, by simp⟩
  | add hprev hadd ih =>
    rename_i regs st placed st2 mn mx
    obtain ⟨hst2, hx, hy⟩ := add_free_some hadd
    subst hst2
    refine ⟨?_, ?_, ?_⟩
    · intro r hr
      rcases List.mem_append.mp hr with hr | hr
      · exact subset_trans (ih.1 r hr) (coveredBy_append_mono regs _)
      · rw [List.mem_singleton] at hr
        rw [hr]
        intro p hp
        exact ⟨Rectangle.mk mn mx, by simp, hp⟩
    · intro p hp
      exact subset_trans (ih.2.1 p hp) (coveredBy_append_mono regs _)
    · intro r hr
      rcases List.mem_append.mp hr with hr | hr
      · exact ih.2.2 r hr
      · rw [List.mem_singleton] at hr
        rw [hr]
        exact ⟨hx, hy⟩
  | packStep hprev hpack ih =>
    obtain ⟨sc, hopt, hst2⟩ := pack_some hpack
    subst hst2
    obtain ⟨h1, h2, h3⟩ := place_step_cont hopt ih.1 ih.2.1 ih.2.2
    exact ⟨h1, h2, h3⟩
  | globalStep hprev hpg ih =>
    rename_i regs st placed st2 T mapping objects res
    have hinv := pack_global_go_inv mapping
      (fun s pr => (∀ r ∈ s, rectSet r ⊆ coveredBy regs) ∧
        (∀ p ∈ pr, rectSet p ⊆ coveredBy regs) ∧
        (∀ r ∈ s, WellFormed r))
      (fun s pr size pos sc hopt hQ => by
        obtain ⟨q1, q2, q3⟩ := place_step_cont hopt hQ.1 hQ.2.1 hQ.2.2
        exact ⟨q1, q2, q3⟩)
      objects st [] placed (by simpa using ih)
    unfold pack_global at hpg
    rw [hpg] at hinv
    exact hinv


/-- C2: the splitting loop of subtract_rect removes every free rectangle that
strictly intersects the occupied rectangle and replaces it by exactly the four
guarded residuals described in the specification (as multisets, since removal
uses unordered swap_remove), leaving non-intersecting free rectangles
untouched. -/
theorem subtract_split_spec (sub : Rectangle) (l : List Rectangle) :
    (↑(subtract_loop sub l 0 0) : Multiset Rectangle) =
      ↑(l.filter fun f => !decide (f.intersects sub)) +
      ↑((l.filter fun f => decide (f.intersects sub)).flatMap
        (specResiduals sub)) := by
  rw [subtract_loop_run]
  have he : residuals sub = specResiduals sub :=
    funext (residuals_eq_specResiduals sub)
  rw [he]

/-- C4: optimal considers exactly the free rectangles whose extent dominates
the requested size, scores them with the best-short-side heuristic, returns
the min corner and score of a minimum-score candidate breaking ties towards
the first in iteration order, and returns none iff no free rectangle can
contain the size. -/
theorem optimal_candidate_selection (l : List Rectangle) (size : Int × Int) :
    (optimal l size = none ↔ ∀ r ∈ l, ¬ canContain r size) ∧
    ∀ pos h, optimal l size = some (pos, h) →
      ∃ l1 r l2, l = l1 ++ r :: l2 ∧ canContain r size ∧ pos = r.min ∧
        h = score r size ∧ (∀ q ∈ l, canContain q size → h ≤ score q size) ∧
        (∀ q ∈ l1, canContain q size → h < score q size) :=
  ⟨optimal_none_iff l size, fun _ _ ho => optimal_some_spec ho⟩

/-- C4 witness: on a two-rectangle free list with a tighter second rectangle,
optimal picks the second one with score 2. -/
theorem optimal_candidate_selection_witness :
    ∃ l1 r l2,
      [Rectangle.mk (0,0) (10,10), Rectangle.mk (0,0) (5,5)] = l1 ++ r :: l2 ∧
      canContain r ((3 : Int), (3 : Int)) ∧ ((0 : Int), (0 : Int)) = r.min ∧
      (2 : Int) = score r (3, 3) ∧
      (∀ q ∈ [Rectangle.mk (0,0) (10,10), Rectangle.mk (0,0) (5,5)],
        canContain q (3, 3) → 2 ≤ score q (3, 3)) ∧
      (∀ q ∈ l1, canContain q (3, 3) → 2 < score q (3, 3)) :=
  (optimal_candidate_selection
    [Rectangle.mk (0,0) (10,10), Rectangle.mk (0,0) (5,5)] (3, 3)).2
    (0, 0) 2 (by decide)

/-- C7: pack returns none exactly when no free rectangle can contain the
requested size, and in that case the free list is left unchanged. -/
theorem pack_exhaustion_spec (st : List Rectangle) (w h : Int) :
    ((pack st w h).1 = none ↔ ∀ r ∈ st, ¬ canContain r (w, h)) ∧
    ((pack st w h).1 = none → (pack st w h).2 = st) := by
  constructor
  · rw [pack_fst_none_iff, optimal_none_iff]
  · exact pack_none_state st w h

/-- C7 witness: packing a 6 by 6 item into a 5 by 5 free rectangle fails and
leaves the free list untouched. -/
theorem pack_exhaustion_spec_witness :
    (pack [Rectangle.mk (0,0) (5,5)] 6 6).2 = [Rectangle.mk (0,0) (5,5)] :=
  (pack_exhaustion_spec [Rectangle.mk (0,0) (5,5)] 6 6).2 (by decide)

/-- C8: add_free fails exactly on inverted bounds (modelling the panic, which
happens before any mutation, as none with the free list unaltered), and on
success appends exactly the one new rectangle with no other change. -/
theorem add_free_validation (st : List Rectangle) (mn mx : Int × Int) :
    (add_free st mn mx = none ↔ mn.1 > mx.1 ∨ mn.2 > mx.2) ∧
    (∀ st2, add_free st mn mx = some st2 → st2 = st ++ [Rectangle.mk mn mx]) :=
  ⟨add_free_none_iff st mn mx, fun _ h => (add_free_some h).1⟩

/-- C8 witness: a successful registration appends exactly the new rectangle. -/
theorem add_free_validation_witness :
    [Rectangle.mk (0,0) (10,10), Rectangle.mk (2,2) (3,3)] =
      [Rectangle.mk (0,0) (10,10)] ++ [Rectangle.mk (2,2) (3,3)] :=
  (add_free_validation [Rectangle.mk (0,0) (10,10)] (2,2) (3,3)).2
    [Rectangle.mk (0,0) (10,10), Rectangle.mk (2,2) (3,3)] (by decide)

/-- C5: each pack_global iteration selects a pair whose score is globally
minimal over all remaining items (first conjunct, about the selection step on
the current free list), and the loop returns Ok exactly when every item was
placed, otherwise an error carrying the items placed so far and a nonempty
unplaced remainder none of which fits the final free list. -/
theorem pack_global_greedy_spec {T : Type} (mapping : T → Int × Int)
    (st : List Rectangle) (objects : List T) :
    (∀ index pos size,
      global_select mapping st objects = some (index, pos, size) →
      ∃ hidx : index < objects.length,
        size = mapping (objects.get ⟨index, hidx⟩) ∧
        ∃ sc, optimal st size = some (pos, sc) ∧
          ∀ (j : Nat) (hj : j < objects.length) (p2 : Int × Int) (h2 : Int),
            optimal st (mapping (objects.get ⟨j, hj⟩)) = some (p2, h2) →
            sc ≤ h2) ∧
    (∀ v st2, pack_global mapping st objects = (st2, Sum.inl v) →
      (↑(v.map Prod.fst) : Multiset T) = ↑objects) ∧
    (∀ f st2, pack_global mapping st objects = (st2, Sum.inr f) →
      ((↑(f.placed.map Prod.fst) : Multiset T) + ↑f.original = ↑objects) ∧
      f.original ≠ [] ∧
      ∀ t ∈ f.original, optimal st2 (mapping t) = none) := by
  refine ⟨?_, ?_, ?_⟩
  · intro index pos size h
    exact ⟨global_select_lt h, global_select_opt h (global_select_lt h)⟩
  · intro v st2 h
    unfold pack_global at h
    have := (pack_global_go_spec mapping objects st []).1 v st2 h
    simpa using this
  · intro f st2 h
    unfold pack_global at h
    obtain ⟨h1, h2, h3⟩ := (pack_global_go_spec mapping objects st []).2 f st2 h
    refine ⟨?_, h2, h3⟩
    simpa using h1

/-- C5 witness: packing one 6 by 6 item into a 5 by 5 canvas fails with an
empty placed set and the item as unplaced remainder, which no longer fits. -/
theorem pack_global_greedy_spec_witness :
    ((↑((FailedPacking.mk ([] : List ((Int × Int) × (Int × Int)))
        [((6 : Int), (6 : Int))]).placed.map Prod.fst) : Multiset (Int × Int)) +
      ↑(FailedPacking.mk ([] : List ((Int × Int) × (Int × Int)))
        [((6 : Int), (6 : Int))]).original = ↑[((6 : Int), (6 : Int))]) ∧
    (FailedPacking.mk ([] : List ((Int × Int) × (Int × Int)))
      [((6 : Int), (6 : Int))]).original ≠ [] ∧
    ∀ t ∈ (FailedPacking.mk ([] : List ((Int × Int) × (Int × Int)))
        [((6 : Int), (6 : Int))]).original,
      optimal [Rectangle.mk (0,0) (5,5)] ((fun s => s) t) = none :=
  (pack_global_greedy_spec (fun s => s) [Rectangle.mk (0,0) (5,5)]
    [((6 : Int), (6 : Int))]).2.2
    (FailedPacking.mk [] [((6 : Int), (6 : Int))]) [Rectangle.mk (0,0) (5,5)]
    (by rw [pack_global, pack_global_go_eq_none [] (by decide), if_neg (by decide)])

/-- C6: the restore method of a failure returned by pack_global yields exactly
a permutation of the original input items. -/
theorem failed_packing_restore_perm {T : Type} (mapping : T → Int × Int)
    (st : List Rectangle) (objects : List T) (st2 : List Rectangle)
    (f : FailedPacking T)
    (h : pack_global mapping st objects = (st2, Sum.inr f)) :
    List.Perm f.restore objects := by
  unfold pack_global at h
  obtain ⟨h1, -, -⟩ := (pack_global_go_spec mapping objects st []).2 f st2 h
  simp only [List.map_nil, Multiset.coe_nil, zero_add] at h1
  apply Multiset.coe_eq_coe.mp
  unfold FailedPacking.restore
  rw [← Multiset.coe_add, add_comm]
  exact h1

/-- C6 witness: restoring the failure of the 6 by 6 item returns that item. -/
theorem failed_packing_restore_perm_witness :
    List.Perm (FailedPacking.mk ([] : List ((Int × Int) × (Int × Int)))
      [((6 : Int), (6 : Int))]).restore [((6 : Int), (6 : Int))] :=
  failed_packing_restore_perm (fun s => s) [Rectangle.mk (0,0) (5,5)]
    [((6 : Int), (6 : Int))] [Rectangle.mk (0,0) (5,5)]
    (FailedPacking.mk [] [((6 : Int), (6 : Int))])
    (by rw [pack_global, pack_global_go_eq_none [] (by decide), if_neg (by decide)])

/-- C1 counterexample: the no-overlap claim as stated fails for arbitrary
interleavings of add_free and pack, because the source explicitly allows
re-registering already packed area (losing the guarantee): registering the
same 10 by 10 square twice and packing it twice reaches a state whose two
placements coincide, hence intersect. -/
theorem noOverlap_counterexample :
    Reached [Rectangle.mk (0,0) (10,10), Rectangle.mk (0,0) (10,10)] []
      [Rectangle.mk (0,0) (10,10), Rectangle.mk (0,0) (10,10)] ∧
    ¬ List.Pairwise (fun u v => ¬ u.intersects v)
      [Rectangle.mk (0,0) (10,10), Rectangle.mk (0,0) (10,10)] := by
  constructor
  · have h0 : Reached [] [] [] := Reached.init
    have h1 : Reached [Rectangle.mk (0,0) (10,10)]
        [Rectangle.mk (0,0) (10,10)] [] :=
      Reached.add h0 (by decide)
    have h2 : Reached [Rectangle.mk (0,0) (10,10)] []
        [Rectangle.mk (0,0) (10,10)] :=
      @Reached.packStep [Rectangle.mk (0,0) (10,10)]
        [Rectangle.mk (0,0) (10,10)] [] 10 10 (0,0) [] h1 (by
        simp [pack, optimal, min_cmp, bssf, Rectangle.dimensions, subtract_rect,
          subtract_loop, swap_remove, residuals, prune_outer, prune_inner,
          Rectangle.intersects, Rectangle.supersets])
    have h3 : Reached [Rectangle.mk (0,0) (10,10), Rectangle.mk (0,0) (10,10)]
        [Rectangle.mk (0,0) (10,10)] [Rectangle.mk (0,0) (10,10)] :=
      Reached.add h2 (by decide)
    exact @Reached.packStep
      [Rectangle.mk (0,0) (10,10), Rectangle.mk (0,0) (10,10)]
      [Rectangle.mk (0,0) (10,10)] [Rectangle.mk (0,0) (10,10)]
      10 10 (0,0) [] h3 (by
      simp [pack, optimal, min_cmp, bssf, Rectangle.dimensions, subtract_rect,
          subtract_loop, swap_remove, residuals, prune_outer, prune_inner,
          Rectangle.intersects, Rectangle.supersets])
  · intro hpw
    have := (List.pairwise_cons.mp hpw).1 (Rectangle.mk (0,0) (10,10)) (by simp)
    exact this (by decide)

/-- C1 amended: within one RectPacker lifetime in which every registered free
rectangle is disjoint from all placements made so far (in particular when all
registrations precede all placements on fresh area), the occupied rectangles
of any two distinct successful placements do not intersect, no free rectangle
intersects any placement, and unconditionally subtract_rect leaves no free
rectangle intersecting the subtracted rectangle. -/
theorem noOverlap_amended {regs st placed : List Rectangle}
    (h : ReachedDisj regs st placed) :
    List.Pairwise (fun u v => ¬ u.intersects v) placed ∧
    (∀ r ∈ st, ∀ p ∈ placed, ¬ r.intersects p) ∧
    ∀ (occupied : Rectangle) (l : List Rectangle) (x : Rectangle),
      x ∈ subtract_rect occupied l → ¬ x.intersects occupied :=
  ⟨(reachedDisj_inv h).2, (reachedDisj_inv h).1,
    fun _ _ _ hx => (subtract_rect_mem hx).1⟩

/-- C1 amended witness: two placements obtained from two disjoint registered
squares do not overlap. -/
theorem noOverlap_amended_witness :
    List.Pairwise (fun u v => ¬ u.intersects v)
      [Rectangle.mk (0,0) (1,1), Rectangle.mk (5,5) (6,6)] := by
  have h0 : ReachedDisj [] [] [] := ReachedDisj.init
  have h1 : ReachedDisj [Rectangle.mk (0,0) (1,1)] [Rectangle.mk (0,0) (1,1)]
      [] :=
    ReachedDisj.add h0 (by decide) (by simp)
  have h2 : ReachedDisj [Rectangle.mk (0,0) (1,1)] []
      [Rectangle.mk (0,0) (1,1)] :=
    @ReachedDisj.packStep [Rectangle.mk (0,0) (1,1)] [Rectangle.mk (0,0) (1,1)]
      [] 1 1 (0,0) [] h1 (by
      simp [pack, optimal, min_cmp, bssf, Rectangle.dimensions, subtract_rect,
          subtract_loop, swap_remove, residuals, prune_outer, prune_inner,
          Rectangle.intersects, Rectangle.supersets])
  have h3 : ReachedDisj [Rectangle.mk (0,0) (1,1), Rectangle.mk (5,5) (6,6)]
      [Rectangle.mk (5,5) (6,6)] [Rectangle.mk (0,0) (1,1)] :=
    ReachedDisj.add h2 (by decide) (by decide)
  have h4 : ReachedDisj [Rectangle.mk (0,0) (1,1), Rectangle.mk (5,5) (6,6)]
      [] [Rectangle.mk (0,0) (1,1), Rectangle.mk (5,5) (6,6)] :=
    @ReachedDisj.packStep [Rectangle.mk (0,0) (1,1), Rectangle.mk (5,5) (6,6)]
      [Rectangle.mk (5,5) (6,6)] [Rectangle.mk (0,0) (1,1)]
      1 1 (5,5) [] h3 (by
      simp [pack, optimal, min_cmp, bssf, Rectangle.dimensions, subtract_rect,
          subtract_loop, swap_remove, residuals, prune_outer, prune_inner,
          Rectangle.intersects, Rectangle.supersets])
  exact (noOverlap_amended h4).1

/-- C9: in every reachable state, each placement's occupied rectangle lies in
the union of the originally registered free rectangles, via the supporting
invariant that every rectangle in the free list does too. -/
theorem containment_spec {regs st placed : List Rectangle}
    (h : Reached regs st placed) :
    (∀ p ∈ placed, rectSet p ⊆ coveredBy regs) ∧
    (∀ r ∈ st, rectSet r ⊆ coveredBy regs) :=
  ⟨(reached_inv h).2.1, (reached_inv h).1⟩

/-- C9 witness: the placement filling a registered 10 by 10 square is covered
by the registered area. -/
theorem containment_spec_witness :
    rectSet (Rectangle.mk (0,0) (10,10)) ⊆
      coveredBy [Rectangle.mk (0,0) (10,10)] := by
  have h0 : Reached [] [] [] := Reached.init
  have h1 : Reached [Rectangle.mk (0,0) (10,10)] [Rectangle.mk (0,0) (10,10)]
      [] :=
    Reached.add h0 (by decide)
  have h2 : Reached [Rectangle.mk (0,0) (10,10)] []
      [Rectangle.mk (0,0) (10,10)] :=
    @Reached.packStep [Rectangle.mk (0,0) (10,10)] [Rectangle.mk (0,0) (10,10)]
      [] 10 10 (0,0) [] h1 (by
      simp [pack, optimal, min_cmp, bssf, Rectangle.dimensions, subtract_rect,
          subtract_loop, swap_remove, residuals, prune_outer, prune_inner,
          Rectangle.intersects, Rectangle.supersets])
  exact (containment_spec h2).1 (Rectangle.mk (0,0) (10,10)) (by simp)

/-- C10: every rectangle in the free list of any reachable state is
well-formed; each residual of a well-formed free rectangle split by a
well-formed subtracted rectangle is well-formed; and add_free only ever
stores a well-formed rectangle. -/
theorem wellformed_invariant :
    (∀ regs st placed, Reached regs st placed → ∀ r ∈ st, WellFormed r) ∧
    (∀ sub free r, WellFormed free → WellFormed sub →
      r ∈ residuals sub free → WellFormed r) ∧
    (∀ (st : List Rectangle) (mn mx : Int × Int) st2,
      add_free st mn mx = some st2 → WellFormed (Rectangle.mk mn mx)) :=
  ⟨fun _ _ _ h => (reached_inv h).2.2,
    fun _ _ _ hf _ hr => residuals_wf hf hr,
    fun _ _ _ _ h => ⟨(add_free_some h).2.1, (add_free_some h).2.2⟩⟩

/-- C10 witness: after registering a 2 by 1 strip and packing a unit square,
the single residual free rectangle is well-formed. -/
theorem wellformed_invariant_witness :
    WellFormed (Rectangle.mk (1,0) (2,1)) := by
  have h0 : Reached [] [] [] := Reached.init
  have h1 : Reached [Rectangle.mk (0,0) (2,1)] [Rectangle.mk (0,0) (2,1)] [] :=
    Reached.add h0 (by decide)
  have h2 : Reached [Rectangle.mk (0,0) (2,1)] [Rectangle.mk (1,0) (2,1)]
      [Rectangle.mk (0,0) (1,1)] :=
    @Reached.packStep [Rectangle.mk (0,0) (2,1)] [Rectangle.mk (0,0) (2,1)]
      [] 1 1 (0,0) [Rectangle.mk (1,0) (2,1)] h1 (by
      simp [pack, optimal, min_cmp, bssf, Rectangle.dimensions, subtract_rect,
          subtract_loop, swap_remove, residuals, prune_outer, prune_inner,
          Rectangle.intersects, Rectangle.supersets])
  exact wellformed_invariant.1 _ _ _ h2 (Rectangle.mk (1,0) (2,1)) (by simp)
